import Mathlib

/-!
Verification development for the airr-poc mapping/normalization/export core.

The definitions below are a shallow embedding of the Python source under
`backend/app/services/`:

  * `mapping_service.py` — `_ensure_canonical_shape`, `_normalize_missing_fields`,
    `_finalize_mapping`, `_json_safe`
  * `extractor_service.py` — `_strip_code_fences`, `_fix_thousands_separators`,
    `_json_safe`
  * `workbook_export_service.py` — `_coerce_value`, `_is_formula`,
    `_clear_table_rows`, `_apply_scalar_values`, `_apply_unit_mix`,
    `_apply_other_income`, `_apply_waterfall`

Python `dict`s are embedded as association lists (first-match lookup; a real
`dict` has unique keys, so first-match lookup coincides with `dict` access),
JSON/Python values as the inductive `Val`, and the worksheet as a function
from cell references to cell states.  The canonical schema itself lives in
`model_schema.yaml`, which is configuration data; the functions are therefore
parametrized by a `Registry` value (section list plus version fingerprint)
mirroring the cached module-level registry.
-/

namespace AirrPoc

/-! ## Python-style string primitives (models of `str` methods) -/

/-- Whitespace characters removed by Python `str.strip()`. -/
def pyWhitespace : List Char := [' ', '\t', '\n', '\r', '\x0b', '\x0c']

/-- Check for a Python whitespace character. -/
def isPyWs (c : Char) : Bool := pyWhitespace.contains c

/-- Drop leading Python whitespace from a character list. -/
def dropLeadingWs : List Char → List Char
  | [] => []
  | c :: cs => if isPyWs c then dropLeadingWs cs else c :: cs

/-- Model of Python `str.strip()` (no arguments): remove leading and trailing
whitespace. -/
def pyStripChars (cs : List Char) : List Char :=
  ((dropLeadingWs ((dropLeadingWs cs).reverse)).reverse)

/-- Model of Python `str.strip()` on `String`. -/
def pyStrip (s : String) : String := ⟨pyStripChars s.data⟩

/-- Check whether `p` is a prefix of `cs` (model of `str.startswith`). -/
def startsWithChars : List Char → List Char → Bool
  | [], _ => true
  | _ :: _, [] => false
  | p :: ps, c :: cs => p = c && startsWithChars ps cs

/-- Model of Python `str.startswith`. -/
def pyStartsWith (s pre : String) : Bool := startsWithChars pre.data s.data

/-- Model of Python `str.endswith`. -/
def pyEndsWith (s suf : String) : Bool :=
  startsWithChars suf.data.reverse s.data.reverse

/-- Drop every trailing occurrence of character `c` (model of
`str.rstrip(c)` for a single strip character). -/
def rstripCharList (c : Char) (cs : List Char) : List Char :=
  ((cs.reverse.dropWhile fun x => x = c)).reverse

/-- Model of Python `str.rstrip("%")`. -/
def rstripChar (s : String) (c : Char) : String := ⟨rstripCharList c s.data⟩

/-- Replace every occurrence of character `old` (model of Python
`str.replace(old, new)` for single-character patterns, which is all the
source uses: `","`, `"$"`, `"Z"` — except `"+00:00"` handled separately). -/
def replaceCharList (old : Char) (new : List Char) : List Char → List Char
  | [] => []
  | c :: cs => if c = old then new ++ replaceCharList old new cs else c :: replaceCharList old new cs

/-- Model of Python `str.replace` with a one-character pattern. -/
def pyReplaceChar (s : String) (old : Char) (new : String) : String :=
  ⟨replaceCharList old new.data s.data⟩

/-- First-match lookup in an association list (model of `dict.get`; a Python
dict has unique keys, so first-match lookup agrees with dict access). -/
def alistGet {α : Type} : List (String × α) → String → Option α
  | [], _ => none
  | (k, v) :: rest, key => if k = key then some v else alistGet rest key

/-- Model of Python `a or b` for optional strings: the empty string is falsy. -/
def pyOrStr (a b : Option String) : Option String :=
  match a with
  | some s => if s = "" then b else some s
  | none => b

/-! ## Values

Embedding of the Python/JSON values that flow through the pipeline. -/

/-- Python/JSON value as handled by the mapping and export services.  Numbers
are embedded as exact rationals (`int` and `float` collapsed); `date` models
a `datetime.date`/`datetime.datetime` object by its calendar fields. -/
inductive Val where
  | null
  | bool (b : Bool)
  | num (q : ℚ)
  | str (s : String)
  | date (y m d : ℕ)
  | list (xs : List Val)
  | dict (entries : List (String × Val))

/-! ## Schema registry model

`model_schema.yaml` is configuration data (not a source file); the service
functions read it through the cached accessors `_schema_sections`,
`_table_labels`, `_field_labels`, `_schema_version`.  We model the loaded
registry as a value: a list of named sections (each a scalar group with
fields or a table with columns, exactly the two kinds the schema declares)
plus the version fingerprint string. -/

inductive SectionKind where
  | scalarGroup
  | table
deriving DecidableEq, Repr

/-- Declared field (or table column) of a schema section: its canonical name
and optional label. -/
structure FieldDef where
  name : String
  label : Option String := none
deriving DecidableEq, Repr

/-- Schema section: kind, optional label, and declared fields (for a
scalar group) or columns (for a table). -/
structure SectionDef where
  kind : SectionKind
  label : Option String := none
  fields : List FieldDef := []
deriving DecidableEq, Repr

/-- Loaded schema registry: sections in declaration order plus the schema
version fingerprint (`_schema_version`). -/
structure Registry where
  sections : List (String × SectionDef)
  version : String

/-- Model of `_table_labels`: section name `↦` `section.get("label") or name`. -/
def labelOrName (name : String) (lbl : Option String) : String :=
  match lbl with
  | some s => if s = "" then name else s
  | none => name

/-- Model of `_table_labels()`. -/
def tableLabelsOf (reg : Registry) : List (String × String) :=
  reg.sections.map fun p => (p.1, labelOrName p.1 p.2.label)

/-- Model of `_field_labels()`: per section, field name `↦` label-or-name. -/
def fieldLabelsOf (reg : Registry) : List (String × List (String × String)) :=
  reg.sections.map fun p =>
    (p.1, p.2.fields.map fun f => (f.name, labelOrName f.name f.label))

/-! ## Canonical shape enforcement (`_ensure_canonical_shape`) -/

/-- Scalar-group shaping: an object with every declared field, pulled from the
input when present else null (`canonical[name][fname] = source_fields.get(fname)`). -/
def scalarShape (fields : List FieldDef) (src : List (String × Val)) : List (String × Val) :=
  fields.map fun f => (f.name, (alistGet src f.name).getD Val.null)

/-- Per-section branch of `_ensure_canonical_shape`: scalar groups are rebuilt
field by field; tables keep an array as-is, coerce `None` to `[]`, and pass any
other shape through unchanged. -/
def sectionShape (sect : SectionDef) (value : Option Val) : Val :=
  match sect.kind with
  | .scalarGroup =>
      let src := match value with
        | some (.dict ms) => ms
        | _ => []
      .dict (scalarShape sect.fields src)
  | .table =>
      match value with
      | none => .list []
      | some .null => .list []
      | some (.list xs) => .list xs
      | some v => v

/-- Model of `_ensure_canonical_shape`: one entry per schema section, in
schema order. -/
def ensureCanonicalShape (schema : List (String × SectionDef)) (mapped : List (String × Val)) :
    List (String × Val) :=
  schema.map fun p => (p.1, sectionShape p.2 (alistGet mapped p.1))

/-! ## Missing-field normalization (`_normalize_missing_fields`) -/

/-- Embedding of the `MissingField` pydantic model. -/
structure MissingField where
  table : String
  field : String
  reason : String
  confidence : Option String := none
  source_fields : Option (List String) := none
  table_label : Option String := none
  field_label : Option String := none
deriving DecidableEq, Repr

/-- Condition under which an upstream scalar entry is dropped:
`field_labels.get(item.table)` is truthy (present and non-empty) and the field
is not among the declared labels. -/
def fieldFilterBlocks (labels : Option (List (String × String))) (fieldName : String) : Bool :=
  match labels with
  | some ls => !ls.isEmpty && (alistGet ls fieldName).isNone
  | none => false

/-- Label attachment for a kept upstream entry:
`item.table_label = item.table_label or table_labels.get(item.table)` and
likewise for the field label. -/
def relabelMissing (reg : Registry) (item : MissingField) : MissingField :=
  { item with
    table_label := pyOrStr item.table_label (alistGet (tableLabelsOf reg) item.table)
    field_label := pyOrStr item.field_label
      (alistGet ((alistGet (fieldLabelsOf reg) item.table).getD []) item.field) }

/-- First loop of `_normalize_missing_fields`: filter/relabel the upstream
entries, tracking covered `(section, field)` pairs in `seen`. -/
def keepMissingFields (reg : Registry) (canonical : List (String × Val)) :
    List MissingField → List (String × String) → List MissingField × List (String × String)
  | [], seen => ([], seen)
  | item :: rest, seen =>
    if (alistGet canonical item.table).isNone then
      keepMissingFields reg canonical rest seen
    else if (alistGet reg.sections item.table).map SectionDef.kind = some SectionKind.table then
      let next := keepMissingFields reg canonical rest ((item.table, item.field) :: seen)
      (item :: next.1, next.2)
    else if fieldFilterBlocks (alistGet (fieldLabelsOf reg) item.table) item.field then
      keepMissingFields reg canonical rest seen
    else
      let next := keepMissingFields reg canonical rest ((item.table, item.field) :: seen)
      (relabelMissing reg item :: next.1, next.2)

/-- Test applied to each normalized scalar value when synthesizing entries:
`field_value is None or (isinstance(field_value, str) and not field_value.strip())`. -/
def isNullOrBlank : Val → Bool
  | .null => true
  | .str s => pyStrip s = ""
  | _ => false

/-- Inner synthesis loop over one scalar section's normalized fields. -/
def synthFieldsFor (reg : Registry) (tbl : String) :
    List (String × Val) → List (String × String) → List MissingField × List (String × String)
  | [], seen => ([], seen)
  | (fname, fval) :: rest, seen =>
    if seen.contains (tbl, fname) then
      synthFieldsFor reg tbl rest seen
    else if isNullOrBlank fval then
      let entry : MissingField :=
        { table := tbl
          field := fname
          reason := "Value missing after mapping"
          confidence := none
          table_label := alistGet (tableLabelsOf reg) tbl
          field_label := alistGet ((alistGet (fieldLabelsOf reg) tbl).getD []) fname }
      let next := synthFieldsFor reg tbl rest ((tbl, fname) :: seen)
      (entry :: next.1, next.2)
    else
      synthFieldsFor reg tbl rest seen

/-- Items iterated by `(value or {}).items()`: the members of a dict value,
nothing otherwise. -/
def dictItems : Val → List (String × Val)
  | .dict ms => ms
  | _ => []

/-- Second loop of `_normalize_missing_fields`: synthesize entries for
null/blank scalar fields of each scalar-group section.  A non-dict section
value (which would raise `AttributeError` in Python on `.items()` and is
unreachable for canonical documents built by `ensureCanonicalShape`) is
modelled as an empty iteration; `value or {}` makes an empty/falsy value
iterate over nothing exactly as in the source. -/
def synthMissingFields (reg : Registry) :
    List (String × Val) → List (String × String) → List MissingField × List (String × String)
  | [], seen => ([], seen)
  | (tbl, value) :: rest, seen =>
    if (alistGet reg.sections tbl).map SectionDef.kind = some SectionKind.scalarGroup then
      let here := synthFieldsFor reg tbl (dictItems value) seen
      let next := synthMissingFields reg rest here.2
      (here.1 ++ next.1, next.2)
    else
      synthMissingFields reg rest seen

/-- Model of `_normalize_missing_fields`. -/
def normalizeMissingFields (reg : Registry) (missing : List MissingField)
    (canonical : List (String × Val)) : List MissingField :=
  let kept := keepMissingFields reg canonical missing []
  let synth := synthMissingFields reg canonical kept.2
  kept.1 ++ synth.1

/-! ## Finalization (`_finalize_mapping`) -/

/-- Embedding of the `MappingMetadata` pydantic model; the timestamp is an
abstract instant. -/
structure MappingMetadata where
  generated_at : ℕ
  warnings : Option (List String) := none
  model_version : Option String := none
  table_labels : List (String × String) := []
  field_labels : List (String × List (String × String)) := []
deriving DecidableEq, Repr

/-- Embedding of the `MappingResult` pydantic model. -/
structure MappingResult where
  mapped : List (String × Val)
  missing_fields : List MissingField
  metadata : MappingMetadata

/-- Model of `_finalize_mapping` (the body of `normalize_mapping`): shape the
document, normalize the missing-field report, and stamp metadata.  The current
time `now` is a parameter (`datetime.utcnow()` in the source). -/
def finalizeMapping (reg : Registry) (now : ℕ) (result : MappingResult) : MappingResult :=
  let canonical := ensureCanonicalShape reg.sections result.mapped
  let missing := normalizeMissingFields reg result.missing_fields canonical
  { mapped := canonical
    missing_fields := missing
    metadata := { result.metadata with
      generated_at := now
      model_version := pyOrStr result.metadata.model_version (some reg.version)
      table_labels := tableLabelsOf reg
      field_labels := fieldLabelsOf reg } }

/-! ## JSON values and a model of `json.loads`

The repair parser (`extractor_service._json_safe`) builds on Python's
`json.loads`.  We embed strict JSON parsing as a fueled recursive-descent
function over the character list: standard JSON grammar (objects, arrays,
strings with escapes, numbers without leading zeros, `true`/`false`/`null`),
whitespace `space/tab/newline/carriage-return`, and whole-input consumption.
Python's nonstandard acceptance of `NaN`/`Infinity` is not modelled (no
input in this development contains them). -/

inductive Json where
  | null
  | bool (b : Bool)
  | num (q : ℚ)
  | str (s : String)
  | arr (xs : List Json)
  | obj (members : List (String × Json))

/-- Whitespace skipped by the JSON grammar. -/
def jsonWs (c : Char) : Bool := c = ' ' || c = '\t' || c = '\n' || c = '\r'

/-- Value of a hexadecimal digit. -/
def hexVal (c : Char) : Option ℕ :=
  if '0' ≤ c ∧ c ≤ '9' then some (c.toNat - '0'.toNat)
  else if 'a' ≤ c ∧ c ≤ 'f' then some (c.toNat - 'a'.toNat + 10)
  else if 'A' ≤ c ∧ c ≤ 'F' then some (c.toNat - 'A'.toNat + 10)
  else none

/-- Decoded character for a single-character JSON string escape. -/
def escChar (c : Char) : Option Char :=
  if c = '"' then some '"'
  else if c = '\\' then some '\\'
  else if c = '/' then some '/'
  else if c = 'b' then some '\x08'
  else if c = 'f' then some '\x0c'
  else if c = 'n' then some '\n'
  else if c = 'r' then some '\r'
  else if c = 't' then some '\t'
  else none

/-- Parse the body of a JSON string after the opening quote; returns the
decoded characters and the remaining input.  Control characters below
`0x20` are rejected (strict mode). -/
def parseJStringAux : List Char → Option (List Char × List Char)
  | [] => none
  | '"' :: cs => some ([], cs)
  | '\\' :: 'u' :: h1 :: h2 :: h3 :: h4 :: cs =>
    match hexVal h1, hexVal h2, hexVal h3, hexVal h4 with
    | some a, some b, some c, some d =>
      match parseJStringAux cs with
      | some (out, rest) => some (Char.ofNat (((a * 16 + b) * 16 + c) * 16 + d) :: out, rest)
      | none => none
    | _, _, _, _ => none
  | '\\' :: e :: cs =>
    match escChar e with
    | some d =>
      match parseJStringAux cs with
      | some (out, rest) => some (d :: out, rest)
      | none => none
    | none => none
  | c :: cs =>
    if c.toNat < 0x20 then none
    else
      match parseJStringAux cs with
      | some (out, rest) => some (c :: out, rest)
      | none => none

/-- Natural number denoted by a list of decimal digits. -/
def natFromDigits (ds : List Char) : ℕ :=
  ds.foldl (fun a c => a * 10 + (c.toNat - '0'.toNat)) 0

/-- Exact rational `±mantissa × 10^(e − fracLen)` of a decimal literal with
integer-plus-fraction digit string `mantDigits`, fraction length `fracLen`
and exponent `e`, built with `mkRat` over integer arithmetic. -/
def ratOfParts (neg : Bool) (mantDigits : List Char) (fracLen : ℕ) (e : ℤ) : ℚ :=
  let mant : ℤ := (natFromDigits mantDigits : ℕ)
  let sMant : ℤ := if neg then -mant else mant
  let net : ℤ := e - (fracLen : ℤ)
  if 0 ≤ net then mkRat (sMant * ((10 : ℕ) ^ net.toNat : ℕ)) 1
  else mkRat sMant ((10 : ℕ) ^ (-net).toNat)

/-- Parse a JSON number (`-?(0|[1-9][0-9]*)(.[0-9]+)?([eE][+-]?[0-9]+)?`) into
an exact rational. -/
def parseJNumber (cs : List Char) : Option (ℚ × List Char) :=
  let (neg, cs₁) := match cs with
    | '-' :: r => (true, r)
    | _ => (false, cs)
  let ids := cs₁.takeWhile Char.isDigit
  let cs₂ := cs₁.dropWhile Char.isDigit
  if ids.isEmpty then none
  else if 1 < ids.length ∧ ids.headD '0' = '0' then none
  else
    let (fds, cs₃) : List Char × List Char :=
      match cs₂ with
      | '.' :: t =>
        let fd := t.takeWhile Char.isDigit
        if fd.isEmpty then ([], cs₂)
        else (fd, t.dropWhile Char.isDigit)
      | _ => ([], cs₂)
    let (expVal, cs₄) : ℤ × List Char :=
      match cs₃ with
      | 'e' :: t => parseJExp t cs₃
      | 'E' :: t => parseJExp t cs₃
      | _ => (0, cs₃)
    some (ratOfParts neg (ids ++ fds) fds.length expVal, cs₄)
where
  /-- Parse the exponent part after `e`/`E`; on failure the exponent is
  absent and the input resumes at `orig` (the `e` itself). -/
  parseJExp (t orig : List Char) : ℤ × List Char :=
    let (sgn, t₁) : Bool × List Char := match t with
      | '+' :: r => (false, r)
      | '-' :: r => (true, r)
      | _ => (false, t)
    let ed := t₁.takeWhile Char.isDigit
    if ed.isEmpty then (0, orig)
    else ((if sgn then -(natFromDigits ed : ℤ) else (natFromDigits ed : ℤ)), t₁.dropWhile Char.isDigit)

mutual

/-- Fueled JSON value parse: skip whitespace, dispatch on the first character. -/
def parseValueF : ℕ → List Char → Option (Json × List Char)
  | 0, _ => none
  | fuel + 1, cs =>
    match cs.dropWhile jsonWs with
    | '{' :: rest => parseObjF fuel rest
    | '[' :: rest => parseArrF fuel rest
    | '"' :: rest =>
      match parseJStringAux rest with
      | some (out, rest') => some (.str ⟨out⟩, rest')
      | none => none
    | 't' :: 'r' :: 'u' :: 'e' :: rest => some (.bool true, rest)
    | 'f' :: 'a' :: 'l' :: 's' :: 'e' :: rest => some (.bool false, rest)
    | 'n' :: 'u' :: 'l' :: 'l' :: rest => some (.null, rest)
    | other =>
      match parseJNumber other with
      | some (q, rest') => some (.num q, rest')
      | none => none

/-- Fueled JSON object parse, after the opening brace. -/
def parseObjF : ℕ → List Char → Option (Json × List Char)
  | 0, _ => none
  | fuel + 1, cs =>
    match cs.dropWhile jsonWs with
    | '}' :: rest => some (.obj [], rest)
    | _ =>
      match parseMembersF fuel cs with
      | some (ms, rest) => some (.obj ms, rest)
      | none => none

/-- Fueled parse of one-or-more `"key": value` members, consuming the
closing brace. -/
def parseMembersF : ℕ → List Char → Option (List (String × Json) × List Char)
  | 0, _ => none
  | fuel + 1, cs =>
    match cs.dropWhile jsonWs with
    | '"' :: rest =>
      match parseJStringAux rest with
      | some (key, rest₁) =>
        match rest₁.dropWhile jsonWs with
        | ':' :: rest₂ =>
          match parseValueF fuel rest₂ with
          | some (v, rest₃) =>
            match rest₃.dropWhile jsonWs with
            | ',' :: rest₄ =>
              match parseMembersF fuel rest₄ with
              | some (ms, rest₅) => some ((⟨key⟩, v) :: ms, rest₅)
              | none => none
            | '}' :: rest₄ => some ([(⟨key⟩, v)], rest₄)
            | _ => none
          | none => none
        | _ => none
      | none => none
    | _ => none

/-- Fueled JSON array parse, after the opening bracket. -/
def parseArrF : ℕ → List Char → Option (Json × List Char)
  | 0, _ => none
  | fuel + 1, cs =>
    match cs.dropWhile jsonWs with
    | ']' :: rest => some (.arr [], rest)
    | _ =>
      match parseItemsF fuel cs with
      | some (xs, rest) => some (.arr xs, rest)
      | none => none

/-- Fueled parse of one-or-more array items, consuming the closing bracket. -/
def parseItemsF : ℕ → List Char → Option (List Json × List Char)
  | 0, _ => none
  | fuel + 1, cs =>
    match parseValueF fuel cs with
    | some (v, rest) =>
      match rest.dropWhile jsonWs with
      | ',' :: rest₂ =>
        match parseItemsF fuel rest₂ with
        | some (xs, rest₃) => some (v :: xs, rest₃)
        | none => none
      | ']' :: rest₂ => some ([v], rest₂)
      | _ => none
    | none => none

end

/-- Model of `json.loads`: parse a complete JSON document, rejecting
trailing non-whitespace (the fuel `2 * length + 8` exceeds the number of
recursive descents any input of this length can cause). -/
def jsonLoads (s : String) : Option Json :=
  match parseValueF (2 * s.data.length + 8) s.data with
  | some (v, rest) => if (rest.dropWhile jsonWs).isEmpty then some v else none
  | none => none

/-! ## Repair parser (`extractor_service`) -/

/-- Model of Python `str.lstrip()`. -/
def pyLStrip (s : String) : String := ⟨dropLeadingWs s.data⟩

/-- Split a character list into segments separated by newline characters. -/
def splitSegsLF : List Char → List (List Char)
  | [] => [[]]
  | '\n' :: rest => [] :: splitSegsLF rest
  | c :: rest =>
    match splitSegsLF rest with
    | seg :: segs => (c :: seg) :: segs
    | [] => [[c]]

/-- Model of Python `str.splitlines()` for LF-separated text (the only line
separator produced by the model outputs this service parses): an empty
string yields no lines, and a trailing newline does not yield a final
empty line. -/
def pySplitLines (s : String) : List String :=
  if s.data.isEmpty then []
  else
    let segs := (splitSegsLF s.data).map fun cs => String.mk cs
    if s.data.getLast? = some '\n' then segs.dropLast else segs

/-- Model of `"\n".join(lines)`. -/
def joinWithNewline : List String → String
  | [] => ""
  | [s] => s
  | s :: rest => s ++ "\n" ++ joinWithNewline rest

/-- Model of `_strip_code_fences`: strip the text; when it starts with a
markdown fence, drop a leading and a trailing fence line and rejoin. -/
def stripCodeFences (text : String) : String :=
  let stripped := pyStrip text
  if pyStartsWith stripped "```" then
    let lines₀ := pySplitLines stripped
    let lines₁ :=
      match lines₀ with
      | l0 :: rest => if pyStartsWith (pyLStrip l0) "```" then rest else lines₀
      | [] => lines₀
    let lines₂ :=
      match lines₁.getLast? with
      | some ll => if pyStartsWith (pyStrip ll) "```" then lines₁.dropLast else lines₁
      | none => lines₁
    joinWithNewline lines₂
  else text

/-- Greedily collect the `,ddd` groups of a thousands-separated number;
returns the groups (each including its comma) and the remaining input. -/
def thousandsGroups : List Char → (List (List Char) × List Char)
  | ',' :: a :: b :: c :: rest =>
    if a.isDigit && b.isDigit && c.isDigit then
      let (gs, r) := thousandsGroups rest
      ([',', a, b, c] :: gs, r)
    else ([], ',' :: a :: b :: c :: rest)
  | other => ([], other)

/-- Attempt to match the repair pattern
`(:\s*)(\d{1,3}(?:,\d{3})+(?:\.\d+)?)(\s*[,\}])` at the head of the input;
on success return the replacement text (number wrapped in quotes) and the
input remaining after the match.  Backtracking over the group count is
resolved as the regex engine does: if the greedy match fails at the
terminator, the last `,ddd` group is given back and its comma serves as the
terminator. -/
def matchThousandsAt : List Char → Option (List Char × List Char)
  | ':' :: r =>
    let ws1 := r.takeWhile isPyWs
    let r₁ := r.dropWhile isPyWs
    let ds := r₁.takeWhile Char.isDigit
    let r₂ := r₁.dropWhile Char.isDigit
    if ds.isEmpty ∨ 3 < ds.length then none
    else
      let (gs, r₃) := thousandsGroups r₂
      if gs.isEmpty then none
      else
        let (fracChars, r₄) : List Char × List Char :=
          match r₃ with
          | '.' :: t =>
            let fd := t.takeWhile Char.isDigit
            if fd.isEmpty then ([], r₃)
            else ('.' :: fd, t.dropWhile Char.isDigit)
          | _ => ([], r₃)
        let ws2 := r₄.takeWhile isPyWs
        let greedyEnd := r₄.dropWhile isPyWs
        match greedyEnd with
        | t :: r₆ =>
          if t = ',' ∨ t = '}' then
            some (':' :: ws1 ++ '"' :: (ds ++ gs.flatten ++ fracChars) ++ '"' :: ws2 ++ [t], r₆)
          else backtrackOne ws1 ds gs r₃
        | [] => backtrackOne ws1 ds gs r₃
  | _ => none
where
  /-- Give back the final `,ddd` group: its comma becomes the matched
  terminator and its digits are re-scanned. -/
  backtrackOne (ws1 ds : List Char) (gs : List (List Char)) (r₃ : List Char) :
      Option (List Char × List Char) :=
    if gs.length < 2 then none
    else
      some (':' :: ws1 ++ '"' :: (ds ++ gs.dropLast.flatten) ++ '"' :: [','],
        (gs.getLastD []).drop 1 ++ r₃)

/-- Left-to-right non-overlapping scan of `re.sub` for the repair pattern. -/
def fixThousandsAux : ℕ → List Char → List Char
  | 0, cs => cs
  | _ + 1, [] => []
  | fuel + 1, c :: cs =>
    match matchThousandsAt (c :: cs) with
    | some (rep, rest) => rep ++ fixThousandsAux fuel rest
    | none => c :: fixThousandsAux fuel cs

/-- Model of `_fix_thousands_separators`. -/
def fixThousandsSeparators (s : String) : String :=
  ⟨fixThousandsAux s.data.length s.data⟩

/-- Index of the first occurrence of `c` (model of `str.find`, with `none`
for Python's `-1`). -/
def charFindIdx (c : Char) : List Char → Option ℕ
  | [] => none
  | x :: xs =>
    if x = c then some 0
    else (charFindIdx c xs).map (· + 1)

/-- Index of the last occurrence of `c` (model of `str.rfind`). -/
def charRFindIdx (c : Char) (cs : List Char) : Option ℕ :=
  (charFindIdx c cs.reverse).map fun i => cs.length - 1 - i

/-- Model of `extractor_service._json_safe`: the never-raising fallback
chain — fence strip, strict parse, first-`{`-to-last-`}` substring parse,
thousands-separator repair — returning an empty object on total failure. -/
def jsonSafe (text : String) : Json :=
  let cleaned := stripCodeFences text
  match jsonLoads cleaned with
  | some parsed => parsed
  | none =>
    match charFindIdx '{' cleaned.data, charRFindIdx '}' cleaned.data with
    | some s, some e =>
      if e ≤ s then .obj []
      else
        let candidate : String := ⟨(cleaned.data.drop s).take (e - s + 1)⟩
        match jsonLoads candidate with
        | some parsed => parsed
        | none =>
          match jsonLoads (fixThousandsSeparators candidate) with
          | some parsed => parsed
          | none => .obj []
    | _, _ => .obj []

/-! ## Workbook export service (`workbook_export_service.py`)

The worksheet is embedded as a function from cell references (strings such
as `"I35"`) to cell states; `export_mapping` itself additionally copies the
template file, saves the workbook and uploads it — pure I/O around the four
cell-writing passes modelled here. -/

/-- Cell state: the held value (`Val.null` for an empty cell) and whether the
loaded cell's `data_type` is the explicit formula flag `"f"`. -/
structure Cell where
  value : Val
  ftype : Bool

/-- Worksheet as a total map from cell references to cell states. -/
def Ws := String → Cell

/-- Model of `ws[ref].value = v`: openpyxl recomputes the data type on
assignment, so the explicit formula flag of a loaded cell is dropped. -/
def setCell (ws : Ws) (ref : String) (v : Val) : Ws :=
  fun r => if r = ref then { value := v, ftype := false } else ws r

/-- Model of `_is_formula`: explicit formula data type, or a string value
whose stripped form starts with `=`. -/
def isFormula (c : Cell) : Bool :=
  c.ftype ||
    (match c.value with
      | .str s => pyStartsWith (pyStrip s) "="
      | _ => false)

/-- Model of Python `float(text)`: optional surrounding whitespace, optional
sign, decimal digits with optional fraction and optional exponent, requiring
at least one digit.  Python's additional spellings (`inf`, `nan`, underscore
separators) are not modelled; no value in this development uses them. -/
def parsePyFloat (s : String) : Option ℚ :=
  let cs := pyStripChars s.data
  let (neg, cs₁) : Bool × List Char := match cs with
    | '-' :: r => (true, r)
    | '+' :: r => (false, r)
    | _ => (false, cs)
  let ids := cs₁.takeWhile Char.isDigit
  let cs₂ := cs₁.dropWhile Char.isDigit
  let (fds, cs₃) : List Char × List Char := match cs₂ with
    | '.' :: t => (t.takeWhile Char.isDigit, t.dropWhile Char.isDigit)
    | _ => ([], cs₂)
  if ids.isEmpty ∧ fds.isEmpty then none
  else
    match cs₃ with
    | [] => some (ratOfParts neg (ids ++ fds) fds.length 0)
    | 'e' :: t => floatExp neg (ids ++ fds) fds.length t
    | 'E' :: t => floatExp neg (ids ++ fds) fds.length t
    | _ => none
where
  /-- Exponent suffix of a float literal; anything after the digits is a
  parse failure. -/
  floatExp (neg : Bool) (mantDigits : List Char) (fracLen : ℕ) (t : List Char) : Option ℚ :=
    let (esgn, t₁) : Bool × List Char := match t with
      | '+' :: r => (false, r)
      | '-' :: r => (true, r)
      | _ => (false, t)
    let ed := t₁.takeWhile Char.isDigit
    if ed.isEmpty ∨ ¬ (t₁.dropWhile Char.isDigit).isEmpty then none
    else
      let e : ℤ := if esgn then -(natFromDigits ed : ℤ) else (natFromDigits ed : ℤ)
      some (ratOfParts neg mantDigits fracLen e)

/-- Leap-year rule of the proleptic Gregorian calendar. -/
def isLeapYear (y : ℕ) : Bool := (y % 4 = 0 && y % 100 ≠ 0) || y % 400 = 0

/-- Days in a month. -/
def daysInMonth (y m : ℕ) : ℕ :=
  if m = 2 then (if isLeapYear y then 29 else 28)
  else if m = 4 ∨ m = 6 ∨ m = 9 ∨ m = 11 then 30
  else 31

/-- Day count of a civil date relative to 1970-01-01 (standard
days-from-civil algorithm). -/
def daysFromCivil (y : ℤ) (m d : ℕ) : ℤ :=
  let yAdj : ℤ := if m ≤ 2 then y - 1 else y
  let era : ℤ := (if 0 ≤ yAdj then yAdj else yAdj - 399) / 400
  let yoe : ℤ := yAdj - era * 400
  let mp : ℕ := if 2 < m then m - 3 else m + 9
  let doy : ℤ := ((153 * mp + 2) / 5 : ℕ) + d - 1
  let doe : ℤ := yoe * 365 + yoe / 4 - yoe / 100 + doy
  era * 146097 + doe - 719468

/-- Spreadsheet date serial of a civil date (model of openpyxl's `to_excel`
with the Windows epoch 1899-12-30, which lies 25569 days before
1970-01-01). -/
def excelSerialOfDate (y m d : ℕ) : ℚ := mkRat (daysFromCivil y m d + 25569) 1

/-- Read exactly two decimal digits. -/
def parse2Digits : List Char → Option (ℕ × List Char)
  | a :: b :: rest =>
    if a.isDigit && b.isDigit then
      some ((a.toNat - '0'.toNat) * 10 + (b.toNat - '0'.toNat), rest)
    else none
  | _ => none

/-- Parse the time-of-day (and optional UTC offset) suffix of an ISO-8601
datetime, returning the day fraction as a numerator/denominator pair.  The
offset is validated but (as in openpyxl's serial conversion of the naive
date-time fields) does not shift the serial. -/
def parseIsoTime (cs : List Char) : Option (ℕ × ℕ) :=
  match parse2Digits cs with
  | some (h, ':' :: r₁) =>
    match parse2Digits r₁ with
    | some (mi, r₂) =>
      if 23 < h ∨ 59 < mi then none
      else
        let (sec, fd, r₃) : ℕ × List Char × List Char :=
          match r₂ with
          | ':' :: t =>
            match parse2Digits t with
            | some (s, u) =>
              match u with
              | '.' :: v =>
                let fdigits := v.takeWhile Char.isDigit
                if fdigits.isEmpty then (s, [], '.' :: v)
                else (s, fdigits, v.dropWhile Char.isDigit)
              | _ => (s, [], u)
            | none => (0, [], r₂)
          | _ => (0, [], r₂)
        if 59 < sec then none
        else
          let num := (h * 3600 + mi * 60 + sec) * 10 ^ fd.length + natFromDigits fd
          let den := 86400 * 10 ^ fd.length
          match r₃ with
          | [] => some (num, den)
          | sgn :: r₄ =>
            if sgn = '+' ∨ sgn = '-' then
              match parse2Digits r₄ with
              | some (oh, ':' :: r₅) =>
                match parse2Digits r₅ with
                | some (om, []) => if 23 < oh ∨ 59 < om then none else some (num, den)
                | _ => none
              | _ => none
            else none
    | none => none
  | _ => none

/-- Model of `to_excel(datetime.fromisoformat(text))`: a dashed
`YYYY-MM-DD` calendar date, optionally followed by `T` or a space and a
time of day with optional offset. -/
def parseIsoSerial (s : String) : Option ℚ :=
  match s.data with
  | y1 :: y2 :: y3 :: y4 :: '-' :: m1 :: m2 :: '-' :: d1 :: d2 :: rest =>
    if y1.isDigit && y2.isDigit && y3.isDigit && y4.isDigit &&
        m1.isDigit && m2.isDigit && d1.isDigit && d2.isDigit then
      let y := natFromDigits [y1, y2, y3, y4]
      let m := natFromDigits [m1, m2]
      let d := natFromDigits [d1, d2]
      if y = 0 ∨ m = 0 ∨ 12 < m ∨ d = 0 ∨ daysInMonth y m < d then none
      else
        match rest with
        | [] => some (excelSerialOfDate y m d)
        | sep :: tcs =>
          if sep = 'T' ∨ sep = ' ' then
            match parseIsoTime tcs with
            | some nd => some (mkRat ((daysFromCivil y m d + 25569) * nd.2 + nd.1) nd.2)
            | none => none
          else none
    else none
  | _ => none

/-- Characters `cleaned[1:-1]` of a parenthesized accounting negative. -/
def sliceMiddle (s : String) : String := ⟨(s.data.drop 1).dropLast⟩

/-- Exact division by 100 (`float(...) / 100.0` of the percent branch),
expressed with `mkRat` on the reduced numerator and denominator. -/
def divideBy100 (q : ℚ) : ℚ := mkRat q.num (q.den * 100)

/-- Argument of the percent-branch float parse:
`text.rstrip("%").replace(",", "")`. -/
def percentCleaned (text : String) : String :=
  pyReplaceChar (rstripChar text '%') ',' ""

/-- Argument of the numeric-branch float parse: strip thousands separators
and dollar signs, and rewrite a parenthesized value as a negation. -/
def numericCleaned (text : String) : String :=
  let cleaned := pyReplaceChar (pyReplaceChar text ',' "") '$' ""
  if pyStartsWith cleaned "(" && pyEndsWith cleaned ")" then "-" ++ sliceMiddle cleaned
  else cleaned

/-- Model of `_coerce_value`: `None` passes through, numbers and booleans
pass through (in Python `bool` is an `int` subclass, so both `isinstance`
branches return the value unchanged), dates become spreadsheet serials, and
strings run the percent / thousands-and-currency / parenthesized-negative /
ISO-date cascade, falling back to the stripped original text.  Any other
value (list, dict) is returned unchanged by the final `return value`. -/
def coerceValue : Val → Val
  | .null => .null
  | .num q => .num q
  | .bool b => .bool b
  | .date y m d => .num (excelSerialOfDate y m d)
  | .str v =>
    let text := pyStrip v
    if text = "" then .null
    else if pyEndsWith text "%" then
      match parsePyFloat (percentCleaned text) with
      | some q => .num (divideBy100 q)
      | none => .str text
    else
      match parsePyFloat (numericCleaned text) with
      | some q => .num q
      | none =>
        match parseIsoSerial (pyReplaceChar text 'Z' "+00:00") with
        | some serial => .num serial
        | none => .str text
  | .list xs => .list xs
  | .dict ms => .dict ms

/-! ## Cell maps (`SCALAR_CELL_MAP` and the table descriptors) -/

/-- Embedding of `SCALAR_CELL_MAP`, in source order. -/
def scalarCellMap : List ((String × String) × String) := [
  (("growth_assumptions", "market_rent_growth"), "I35"),
  (("growth_assumptions", "affordable_rent_growth"), "I36"),
  (("growth_assumptions", "other_income_growth"), "I37"),
  (("growth_assumptions", "controllables_growth"), "I38"),
  (("growth_assumptions", "taxes_growth"), "I39"),
  (("growth_assumptions", "insurance_growth"), "I40"),
  (("project_timeline", "land_closing_date"), "C11"),
  (("project_timeline", "construction_start_month"), "C13"),
  (("project_timeline", "first_units_delivered_month"), "C16"),
  (("revenue_and_leaseup", "vacancy_pct"), "C22"),
  (("revenue_and_leaseup", "loss_to_lease_pct"), "C23"),
  (("revenue_and_leaseup", "bad_debt_pct"), "C24"),
  (("revenue_and_leaseup", "model_units"), "C25"),
  (("revenue_and_leaseup", "concessions_lease_up_months"), "C27"),
  (("revenue_and_leaseup", "leased_units_per_month"), "C36"),
  (("revenue_and_leaseup", "renewal_probability_pct"), "C37"),
  (("revenue_and_leaseup", "lease_term_months"), "C38"),
  (("operating_expenses", "payroll"), "C48"),
  (("operating_expenses", "utilities"), "C49"),
  (("operating_expenses", "turnover"), "C50"),
  (("operating_expenses", "contract_services"), "C51"),
  (("operating_expenses", "repairs_maintenance"), "C52"),
  (("operating_expenses", "leasing_marketing"), "C53"),
  (("operating_expenses", "general_admin"), "C54"),
  (("operating_expenses", "other_expenses"), "C55"),
  (("operating_expenses", "management_fee_pct"), "C58"),
  (("operating_expenses", "insurance"), "C59"),
  (("operating_expenses", "property_taxes"), "C60"),
  (("operating_expenses", "other_taxes_fees"), "C61"),
  (("operating_expenses", "replacement_reserves"), "C64"),
  (("senior_loan_terms", "loan_to_cost_pct"), "F5"),
  (("senior_loan_terms", "interest_type"), "F6"),
  (("senior_loan_terms", "curve"), "F7"),
  (("senior_loan_terms", "sofr_spread_pct"), "F8"),
  (("senior_loan_terms", "sofr_floor_pct"), "F9"),
  (("senior_loan_terms", "sofr_cap_pct"), "F10"),
  (("senior_loan_terms", "interest_only_period_months"), "F11"),
  (("senior_loan_terms", "amortization_schedule_years"), "F12"),
  (("senior_loan_terms", "initial_term_months"), "F13"),
  (("senior_loan_terms", "origination_fee_pct"), "F15"),
  (("senior_loan_terms", "rate_stepdown_dscr_multiple"), "F16"),
  (("senior_loan_terms", "rate_stepdown_dy_pct"), "F17"),
  (("senior_loan_terms", "stepdown_rate_pct"), "F18"),
  (("senior_loan_terms", "exit_fee_pct"), "F20"),
  (("preferred_equity_terms", "has_preferred_equity"), "C93"),
  (("preferred_equity_terms", "loan_to_cost_pct"), "C94"),
  (("preferred_equity_terms", "initial_term_months"), "C95"),
  (("preferred_equity_terms", "interest_type"), "C96"),
  (("preferred_equity_terms", "sofr_spread_pct"), "C97"),
  (("preferred_equity_terms", "sofr_floor_pct"), "C98"),
  (("preferred_equity_terms", "total_interest_rate_pct"), "C99"),
  (("preferred_equity_terms", "minimum_multiple"), "C100"),
  (("preferred_equity_terms", "current_pay_pct"), "C101"),
  (("preferred_equity_terms", "accrual_pct"), "C102"),
  (("exit_assumptions", "sale_month"), "F25"),
  (("exit_assumptions", "noi_type"), "F26"),
  (("exit_assumptions", "sale_costs_pct"), "F27"),
  (("exit_assumptions", "exit_cap_rate_mf_pct"), "F28"),
  (("exit_assumptions", "exit_cap_rate_retail_pct"), "F29"),
  (("tax_reassessment_at_exit", "reassess_at_sale"), "E33"),
  (("tax_reassessment_at_exit", "property_tax_millage_rate_pct"), "F34"),
  (("tax_reassessment_at_exit", "county_assessment_pct"), "F35"),
  (("tax_reassessment_at_exit", "market_value_as_pct_of_sale_price"), "F36"),
  (("sources_and_uses", "land_acquisition_cost"), "J13"),
  (("sources_and_uses", "hard_costs_total"), "J14"),
  (("sources_and_uses", "soft_costs_total"), "J15"),
  (("sources_and_uses", "financing_costs"), "J16"),
  (("sources_and_uses", "operating_reserve"), "J17"),
  (("sources_and_uses", "senior_interest_reserve"), "J18")]

def unitMixStartRow : ℕ := 23
def unitMixMaxRows : ℕ := 6

/-- Embedding of `UNIT_MIX_COLUMNS`, in insertion (iteration) order. -/
def unitMixColumns : List (String × String) :=
  [("unit_type", "H"), ("num_units", "I"), ("avg_sf", "J"), ("rent", "K"),
   ("original_label", "H")]

def otherIncomeStartRow : ℕ := 70
def otherIncomeMaxRows : ℕ := 16

/-- Embedding of `OTHER_INCOME_COLUMNS`. -/
def otherIncomeColumns : List (String × String) :=
  [("item_name", "B"), ("num_units", "C"), ("amount_per_month", "D")]

def waterfallStartRow : ℕ := 45
def waterfallMaxRows : ℕ := 5

/-- Embedding of `WATERFALL_COLUMNS`. -/
def waterfallColumns : List (String × String) :=
  [("tier_name", "H"), ("lp_split_pct", "I"), ("gp_split_pct", "J"),
   ("hurdle_irr_pct", "L"), ("moic_multiple", "M"), ("dollar_amount", "N")]

/-- Order of the explicit `fields_to_write` list in `_apply_waterfall`. -/
def waterfallFieldsToWrite : List String :=
  ["tier_name", "lp_split_pct", "gp_split_pct", "hurdle_irr_pct",
   "moic_multiple", "dollar_amount"]

/-- Cell reference `f"{col}{row}"`. -/
def cellRef (col : String) (row : ℕ) : String := col ++ Nat.repr row

/-- Embedding of the `ExportAppliedField` record. -/
structure ExportAppliedField where
  table : String
  field : String
  cell : String
  value : Val

/-- Worksheet plus the shared `applied` accumulator threaded through the
four write passes of `export_mapping`. -/
def ExportState := Ws × List ExportAppliedField

/-- Test `coerced is None`. -/
def isNullVal : Val → Bool
  | .null => true
  | _ => false

/-- Test Python `x in (None, "")`. -/
def isNoneOrEmptyStr : Val → Bool
  | .null => true
  | .str s => s = ""
  | _ => false

/-- Model of Python `str(x)` restricted to the values the export writes as
text (`item_name`, `tier_name`): exact for strings, booleans and `None`;
numeric, date and aggregate renderings are schematic stand-ins (no claim
observes them — written names in this development are strings). -/
def pyStr : Val → String
  | .str s => s
  | .bool b => if b then "True" else "False"
  | .null => "None"
  | .num q => (if q.num < 0 then "-" else "") ++ Nat.repr q.num.natAbs ++
      (if q.den = 1 then "" else "/" ++ Nat.repr q.den)
  | .date y m d => Nat.repr y ++ "-" ++ Nat.repr m ++ "-" ++ Nat.repr d
  | .list _ => "[...]"
  | .dict _ => "\x7b...\x7d"

/-- Column letters cleared by `_clear_table_rows`: the set of mapped columns
minus the skip set (a Python `set`; modelled as a first-occurrence
deduplicated list — the iteration order is immaterial because every write
stores `None`). -/
def clearTargets (columnMap : List (String × String)) (skip : List String) : List String :=
  (columnMap.map Prod.snd).dedup.filter fun c => !skip.contains c

/-- Clear one row across the target columns. -/
def clearRow (row : ℕ) : Ws → List String → Ws
  | ws, [] => ws
  | ws, col :: cols => clearRow row (setCell ws (cellRef col row) Val.null) cols

/-- Model of `_clear_table_rows`: set every cell of the row band (declared
start row, declared max-row count, mapped columns minus the skip set) to
`None`. -/
def clearTableRows (ws : Ws) (startRow maxRows : ℕ) (columnMap : List (String × String))
    (skip : List String) : Ws :=
  (List.range maxRows).foldl
    (fun w idx => clearRow (startRow + idx) w (clearTargets columnMap skip)) ws

/-- Loop body of `_apply_scalar_values` for one `(table, field) → cell`
entry: look up the section dict, coerce the raw value, skip on `None` or on
a formula-holding destination, otherwise write and record. -/
def applyScalarStep (mapped : List (String × Val)) (st : ExportState)
    (entry : (String × String) × String) : ExportState :=
  match alistGet mapped entry.1.1 with
  | some (.dict tableVal) =>
    let raw := (alistGet tableVal entry.1.2).getD Val.null
    let coerced := coerceValue raw
    if isNullVal coerced then st
    else if isFormula (st.1 entry.2) then st
    else (setCell st.1 entry.2 coerced,
      st.2 ++ [{ table := entry.1.1, field := entry.1.2, cell := entry.2, value := raw }])
  | _ => st

/-- Model of `_apply_scalar_values`. -/
def applyScalarValues (mapped : List (String × Val)) (st : ExportState) : ExportState :=
  scalarCellMap.foldl (applyScalarStep mapped) st

/-- Loop body of the `_apply_unit_mix` field loop: skip fields absent from
the row (`if field not in row: continue`), then coerce / formula-check /
write / record. -/
def applyRowField (tableName : String) (row : List (String × Val)) (targetRow : ℕ)
    (st : ExportState) (fieldCol : String × String) : ExportState :=
  match alistGet row fieldCol.1 with
  | none => st
  | some raw =>
    let coerced := coerceValue raw
    if isNullVal coerced then st
    else
      let cell := cellRef fieldCol.2 targetRow
      if isFormula (st.1 cell) then st
      else (setCell st.1 cell coerced,
        st.2 ++ [{ table := tableName, field := fieldCol.1, cell := cell, value := raw }])

/-- Field write used by `_apply_other_income` and `_apply_waterfall`, which
call `row.get(field)` without a membership test (an absent field reads as
`None` and is skipped by the coercion check). -/
def applyRowFieldNoCheck (tableName : String) (row : List (String × Val)) (targetRow : ℕ)
    (st : ExportState) (fieldCol : String × String) : ExportState :=
  let raw := (alistGet row fieldCol.1).getD Val.null
  let coerced := coerceValue raw
  if isNullVal coerced then st
  else
    let cell := cellRef fieldCol.2 targetRow
    if isFormula (st.1 cell) then st
    else (setCell st.1 cell coerced,
      st.2 ++ [{ table := tableName, field := fieldCol.1, cell := cell, value := raw }])

/-- Name-column write shared by `_apply_other_income` (`item_name`) and
`_apply_waterfall` (`tier_name`): skip `None`/empty, write `str(raw)` unless
the destination holds a formula, and record the raw value. -/
def applyNameField (tableName fieldName : String) (row : List (String × Val))
    (col : String) (targetRow : ℕ) (st : ExportState) : ExportState :=
  let raw := (alistGet row fieldName).getD Val.null
  if isNoneOrEmptyStr raw then st
  else
    let cell := cellRef col targetRow
    if isFormula (st.1 cell) then st
    else (setCell st.1 cell (.str (pyStr raw)),
      st.2 ++ [{ table := tableName, field := fieldName, cell := cell, value := raw }])

/-- Row body of `_apply_unit_mix`: non-dict rows are skipped. -/
def applyUnitMixRow (st : ExportState) (idxRow : ℕ × Val) : ExportState :=
  match idxRow.2 with
  | .dict row =>
    unitMixColumns.foldl (applyRowField "unit_mix" row (unitMixStartRow + idxRow.1)) st
  | _ => st

/-- Model of `_apply_unit_mix`: on a non-empty row list, clear the band
(minus the skip set `{"L"}`) and write the first `UNIT_MIX_MAX_ROWS` rows. -/
def applyUnitMix (mapped : List (String × Val)) (st : ExportState) : ExportState :=
  match alistGet mapped "unit_mix" with
  | some (.list rows) =>
    if rows.isEmpty then st
    else
      let ws₁ := clearTableRows st.1 unitMixStartRow unitMixMaxRows unitMixColumns ["L"]
      ((rows.take unitMixMaxRows).enum).foldl applyUnitMixRow (ws₁, st.2)
  | _ => st

/-- Row body of `_apply_other_income`: the `item_name` text write, then the
remaining columns through the coercion path. -/
def applyOtherIncomeRow (st : ExportState) (idxRow : ℕ × Val) : ExportState :=
  match idxRow.2 with
  | .dict row =>
    let targetRow := otherIncomeStartRow + idxRow.1
    let st₁ := applyNameField "other_income" "item_name" row
      ((alistGet otherIncomeColumns "item_name").getD "") targetRow st
    otherIncomeColumns.foldl
      (fun s fc =>
        if fc.1 = "item_name" then s
        else applyRowFieldNoCheck "other_income" row targetRow s fc) st₁
  | _ => st

/-- Model of `_apply_other_income`. -/
def applyOtherIncome (mapped : List (String × Val)) (st : ExportState) : ExportState :=
  match alistGet mapped "other_income" with
  | some (.list rows) =>
    if rows.isEmpty then st
    else
      let ws₁ := clearTableRows st.1 otherIncomeStartRow otherIncomeMaxRows otherIncomeColumns []
      ((rows.take otherIncomeMaxRows).enum).foldl applyOtherIncomeRow (ws₁, st.2)
  | _ => st

/-- Row body of `_apply_waterfall`: iterate the explicit `fields_to_write`
list, treating `tier_name` as a text write; a field absent from the column
map (or mapped to a falsy column) is skipped. -/
def applyWaterfallRow (st : ExportState) (idxRow : ℕ × Val) : ExportState :=
  match idxRow.2 with
  | .dict row =>
    let targetRow := waterfallStartRow + idxRow.1
    waterfallFieldsToWrite.foldl
      (fun s field =>
        match alistGet waterfallColumns field with
        | none => s
        | some col =>
          if col = "" then s
          else if field = "tier_name" then
            applyNameField "waterfall" "tier_name" row col targetRow s
          else applyRowFieldNoCheck "waterfall" row targetRow s (field, col)) st
  | _ => st

/-- Model of `_apply_waterfall`. -/
def applyWaterfall (mapped : List (String × Val)) (st : ExportState) : ExportState :=
  match alistGet mapped "waterfall" with
  | some (.list rows) =>
    if rows.isEmpty then st
    else
      let ws₁ := clearTableRows st.1 waterfallStartRow waterfallMaxRows waterfallColumns []
      ((rows.take waterfallMaxRows).enum).foldl applyWaterfallRow (ws₁, st.2)
  | _ => st

/-- The four cell-writing passes of `export_mapping` in order, starting from
an empty `applied_fields` list. -/
def applyAll (mapped : List (String × Val)) (ws : Ws) : ExportState :=
  applyWaterfall mapped (applyOtherIncome mapped (applyUnitMix mapped
    (applyScalarValues mapped (ws, []))))

/-- Cell references of a table section's row band. -/
def bandCells (startRow maxRows : ℕ) (cols : List String) : List String :=
  (List.range maxRows).flatMap fun i => cols.map fun c => cellRef c (startRow + i)

/-- Row band touched by `_apply_unit_mix`. -/
def unitMixBand : List String :=
  bandCells unitMixStartRow unitMixMaxRows (unitMixColumns.map Prod.snd)

/-- Row band touched by `_apply_other_income`. -/
def otherIncomeBand : List String :=
  bandCells otherIncomeStartRow otherIncomeMaxRows (otherIncomeColumns.map Prod.snd)

/-- Row band touched by `_apply_waterfall`. -/
def waterfallBand : List String :=
  bandCells waterfallStartRow waterfallMaxRows (waterfallColumns.map Prod.snd)

/-- Modelled from the spec: a fragment of the canonical schema registry
(`model_schema.yaml` is a data file, not a source file).  It declares the
scalar-group section `growth_assumptions` with its field
`market_rent_growth` — names attested by `SCALAR_CELL_MAP` in
`workbook_export_service.py` — plus the table section `unit_mix`.  The
theorems about the normalizer are proved for arbitrary registries; this
concrete fragment only instantiates counterexamples and witnesses. -/
def regGrowth : Registry :=
  { sections := [
      ("growth_assumptions",
        { kind := .scalarGroup
          label := some "Growth Assumptions"
          fields := [
            { name := "market_rent_growth", label := some "Market Rent Growth" },
            { name := "taxes_growth", label := some "Taxes Growth" }] }),
      ("unit_mix",
        { kind := .table
          label := some "Unit Mix"
          fields := [
            { name := "unit_type", label := some "Unit Type" },
            { name := "num_units", label := some "Number of Units" }] })]
    version := "0123456789ab" }

/-- Predicate of a table section the export must leave alone: its value in
the document is an empty array, some non-array value, or absent. -/
def noTableRows (mapped : List (String × Val)) (tbl : String) : Prop :=
  ∀ rows, alistGet mapped tbl = some (Val.list rows) → rows = []

/-- The `(section, field)` pairs of a missing-field report. -/
def missingPairs (l : List MissingField) : List (String × String) :=
  l.map fun e => (e.table, e.field)

/-- Invariant satisfied by every entry that `_normalize_missing_fields`
emits: its section is a key of the canonical document, and it is either a
table-section entry (passed through verbatim) or an entry that survives the
scalar filter with its labels already attached (a fixpoint of relabelling). -/
def keptEntryInv (reg : Registry) (canonical : List (String × Val)) (e : MissingField) : Prop :=
  (alistGet canonical e.table).isNone = false ∧
  ((alistGet reg.sections e.table).map SectionDef.kind = some SectionKind.table ∨
    (¬(alistGet reg.sections e.table).map SectionDef.kind = some SectionKind.table ∧
      fieldFilterBlocks (alistGet (fieldLabelsOf reg) e.table) e.field = false ∧
      relabelMissing reg e = e))

/-! # Theorems -/

/-! ## General helper lemmas -/

theorem foldl_invariant {α β : Type} (step : β → α → β) (P : β → Prop) :
    ∀ (l : List α) (init : β), P init → (∀ b a, a ∈ l → P b → P (step b a)) →
      P (l.foldl step init)
  | [], _, h, _ => h
  | a :: l, init, h, hstep =>
    foldl_invariant step P l (step init a) (hstep init a (List.mem_cons_self a l) h)
      fun b x hx hb => hstep b x (List.mem_cons_of_mem a hx) hb

/-! ## C7: coercion worked examples -/

/-- C7: value coercion satisfies the spec's worked examples:
`coerce("12.5%") == 0.125`, `coerce("-3%") == -0.03`,
`coerce("(1,200)") == -1200`, `coerce("$4,500") == 4500`. -/
theorem c7_coercion_examples :
    coerceValue (Val.str "12.5%") = Val.num 0.125 ∧
    coerceValue (Val.str "-3%") = Val.num (-0.03) ∧
    coerceValue (Val.str "(1,200)") = Val.num (-1200) ∧
    coerceValue (Val.str "$4,500") = Val.num 4500 := by
  have e1 : (0.125 : ℚ) = mkRat 1 8 := by
    rw [Rat.mkRat_eq_divInt, Rat.divInt_eq_div]; norm_num
  have e2 : (-0.03 : ℚ) = mkRat (-3) 100 := by
    rw [Rat.mkRat_eq_divInt, Rat.divInt_eq_div]; norm_num
  have e3 : (-1200 : ℚ) = mkRat (-1200) 1 := by
    rw [Rat.mkRat_eq_divInt, Rat.divInt_eq_div]; norm_num
  have e4 : (4500 : ℚ) = mkRat 4500 1 := by
    rw [Rat.mkRat_eq_divInt, Rat.divInt_eq_div]; norm_num
  rw [e1, e2, e3, e4]
  exact ⟨rfl, rfl, rfl, rfl⟩

/-! ## C8: coercion totality and fallbacks -/

/-- C8: value coercion is total (the embedding is a total function, mirroring
the source's catch-all exception handling): `None` maps to `None`, a string
that is blank after stripping maps to `None`, and a string on which every
numeric and date parse attempt fails comes back as the stripped original
string. -/
theorem c8_coercion_total :
    coerceValue Val.null = Val.null ∧
    (∀ s : String, pyStrip s = "" → coerceValue (Val.str s) = Val.null) ∧
    (∀ s : String, pyStrip s ≠ "" →
      pyEndsWith (pyStrip s) "%" = true →
      parsePyFloat (percentCleaned (pyStrip s)) = none →
      coerceValue (Val.str s) = Val.str (pyStrip s)) ∧
    (∀ s : String, pyStrip s ≠ "" →
      pyEndsWith (pyStrip s) "%" = false →
      parsePyFloat (numericCleaned (pyStrip s)) = none →
      parseIsoSerial (pyReplaceChar (pyStrip s) 'Z' "+00:00") = none →
      coerceValue (Val.str s) = Val.str (pyStrip s)) := by
  refine ⟨rfl, ?_, ?_, ?_⟩
  · intro s h
    simp [coerceValue, h]
  · intro s h1 h2 h3
    simp [coerceValue, h1, h2, h3]
  · intro s h1 h2 h3 h4
    simp [coerceValue, h1, h2, h3, h4]

/-- Witness for C8 at concrete inputs. -/
theorem c8_coercion_total_witness :
    coerceValue (Val.str "   ") = Val.null ∧
    coerceValue (Val.str " twelve% ") = Val.str "twelve%" ∧
    coerceValue (Val.str "  Fixed Rate ") = Val.str "Fixed Rate" :=
  ⟨c8_coercion_total.2.1 "   " (by rfl),
   c8_coercion_total.2.2.1 " twelve% " (by decide) (by rfl) (by rfl),
   c8_coercion_total.2.2.2 "  Fixed Rate " (by decide) (by rfl) (by rfl) (by rfl)⟩

/-! ## C5: repair parser fallback chain -/

/-- C5: the lenient payload parser never raises (it is a total function)
and returns an empty object on total failure; on the fenced example with
the bare thousands-separated number `111,625`, the strict parse of the
fence-stripped text fails (and, the text being exactly the first-`{`-to-
last-`}` substring, so does the substring parse), the targeted repair
quotes the number, and the final result maps `"Net Rentals SF"` to the
string `"111,625"`. -/
theorem c5_repair_chain :
    stripCodeFences "```json\n\x7b\"Net Rentals SF\": 111,625, \"ok\": true\x7d\n```"
      = "\x7b\"Net Rentals SF\": 111,625, \"ok\": true\x7d" ∧
    jsonLoads "\x7b\"Net Rentals SF\": 111,625, \"ok\": true\x7d" = none ∧
    fixThousandsSeparators "\x7b\"Net Rentals SF\": 111,625, \"ok\": true\x7d"
      = "\x7b\"Net Rentals SF\": \"111,625\", \"ok\": true\x7d" ∧
    jsonSafe "```json\n\x7b\"Net Rentals SF\": 111,625, \"ok\": true\x7d\n```"
      = Json.obj [("Net Rentals SF", Json.str "111,625"), ("ok", Json.bool true)] ∧
    jsonSafe "total failure: no parsable payload" = Json.obj [] := by
  refine ⟨?_, ?_, ?_, ?_, ?_⟩ <;> rfl

/-! ## C9: zero-row table sections leave the band untouched -/

/-- C9: when a table section's value is an empty array or not an array at
all, the corresponding export pass performs neither the clearing pass nor
any write: worksheet and applied-fields list come back unchanged. -/
theorem c9_zero_rows_untouched (mapped : List (String × Val)) (st : ExportState) :
    (noTableRows mapped "unit_mix" → applyUnitMix mapped st = st) ∧
    (noTableRows mapped "other_income" → applyOtherIncome mapped st = st) ∧
    (noTableRows mapped "waterfall" → applyWaterfall mapped st = st) := by
  refine ⟨?_, ?_, ?_⟩ <;> intro h
  · cases hm : alistGet mapped "unit_mix" with
    | none => simp [applyUnitMix, hm]
    | some v =>
      cases v with
      | list rows => simp [applyUnitMix, hm, h rows hm]
      | null => simp [applyUnitMix, hm]
      | bool b => simp [applyUnitMix, hm]
      | num q => simp [applyUnitMix, hm]
      | str s => simp [applyUnitMix, hm]
      | date y m d => simp [applyUnitMix, hm]
      | dict ms => simp [applyUnitMix, hm]
  · cases hm : alistGet mapped "other_income" with
    | none => simp [applyOtherIncome, hm]
    | some v =>
      cases v with
      | list rows => simp [applyOtherIncome, hm, h rows hm]
      | null => simp [applyOtherIncome, hm]
      | bool b => simp [applyOtherIncome, hm]
      | num q => simp [applyOtherIncome, hm]
      | str s => simp [applyOtherIncome, hm]
      | date y m d => simp [applyOtherIncome, hm]
      | dict ms => simp [applyOtherIncome, hm]
  · cases hm : alistGet mapped "waterfall" with
    | none => simp [applyWaterfall, hm]
    | some v =>
      cases v with
      | list rows => simp [applyWaterfall, hm, h rows hm]
      | null => simp [applyWaterfall, hm]
      | bool b => simp [applyWaterfall, hm]
      | num q => simp [applyWaterfall, hm]
      | str s => simp [applyWaterfall, hm]
      | date y m d => simp [applyWaterfall, hm]
      | dict ms => simp [applyWaterfall, hm]

/-- Witness for C9: an empty unit-mix array, a non-array other-income value
and an absent waterfall section all leave the state unchanged. -/
theorem c9_zero_rows_untouched_witness :
    applyUnitMix [("unit_mix", Val.list []), ("other_income", Val.num 3)]
        ((fun _ => { value := Val.null, ftype := false } : Ws), []) =
      ((fun _ => { value := Val.null, ftype := false } : Ws), []) ∧
    applyOtherIncome [("unit_mix", Val.list []), ("other_income", Val.num 3)]
        ((fun _ => { value := Val.null, ftype := false } : Ws), []) =
      ((fun _ => { value := Val.null, ftype := false } : Ws), []) ∧
    applyWaterfall [("unit_mix", Val.list []), ("other_income", Val.num 3)]
        ((fun _ => { value := Val.null, ftype := false } : Ws), []) =
      ((fun _ => { value := Val.null, ftype := false } : Ws), []) := by
  have h := c9_zero_rows_untouched [("unit_mix", Val.list []), ("other_income", Val.num 3)]
    ((fun _ => { value := Val.null, ftype := false } : Ws), [])
  refine ⟨h.1 ?_, h.2.1 ?_, h.2.2 ?_⟩
  · intro rows hr
    injection hr with h'
    injection h' with h''
    exact h''.symm
  · intro rows hr
    injection hr with h'
    exact Val.noConfusion h'
  · intro rows hr
    exact Option.noConfusion hr

/-! ## C2: the clearing pass and formula cells -/

/-- Counterexample to C2 as stated: a formula cell inside the unit-mix row
band (`H23`, explicit formula type, value `=K23*J23`) does not keep its
formula through the clearing pass — exporting a non-empty unit-mix row list
clears it to `None`. -/
theorem c2_counterexample :
    (let ws₀ : Ws := fun r =>
        if r = "H23" then { value := Val.str "=K23*J23", ftype := true }
        else { value := Val.null, ftype := false }
     let mapped₀ : List (String × Val) := [("unit_mix", Val.list [Val.dict []])]
     isFormula (ws₀ "H23") = true ∧
       ((applyUnitMix mapped₀ (ws₀, [])).1 "H23").value = Val.null ∧
       (ws₀ "H23").value ≠ Val.null) := by
  refine ⟨rfl, rfl, ?_⟩
  intro h
  exact Val.noConfusion h

/-- Per-cell description of one row of the clearing pass. -/
theorem clearRow_get (row : ℕ) (cols : List String) :
    ∀ (ws : Ws) (r : String),
      clearRow row ws cols r =
        if r ∈ cols.map (fun c => cellRef c row) then { value := Val.null, ftype := false }
        else ws r := by
  induction cols with
  | nil => intro ws r; simp [clearRow]
  | cons c cs ih =>
    intro ws r
    simp only [clearRow, List.map_cons, List.mem_cons]
    rw [ih]
    by_cases h1 : r ∈ cs.map fun c => cellRef c row
    · simp [h1]
    · by_cases h2 : r = cellRef c row
      · simp [h1, h2, setCell]
      · simp [h1, h2, setCell]

/-- Unfolding of the clearing pass one row at a time. -/
theorem clearTableRows_succ (ws : Ws) (startRow n : ℕ) (columnMap : List (String × String))
    (skip : List String) :
    clearTableRows ws startRow (n + 1) columnMap skip =
      clearRow (startRow + n) (clearTableRows ws startRow n columnMap skip)
        (clearTargets columnMap skip) := by
  unfold clearTableRows
  rw [List.range_succ, List.foldl_append]
  rfl

/-- Per-cell description of the whole clearing pass. -/
theorem clearTableRows_get (startRow : ℕ) (columnMap : List (String × String))
    (skip : List String) :
    ∀ (maxRows : ℕ) (ws : Ws) (r : String),
      clearTableRows ws startRow maxRows columnMap skip r =
        if r ∈ (List.range maxRows).flatMap
            (fun i => (clearTargets columnMap skip).map fun c => cellRef c (startRow + i))
        then { value := Val.null, ftype := false } else ws r := by
  intro maxRows
  induction maxRows with
  | zero => intro ws r; simp [clearTableRows]
  | succ n ih =>
    intro ws r
    rw [clearTableRows_succ, clearRow_get, ih]
    by_cases h1 : r ∈ (clearTargets columnMap skip).map fun c => cellRef c (startRow + n)
    · simp [List.range_succ, h1]
    · by_cases h2 : r ∈ (List.range n).flatMap
          fun i => (clearTargets columnMap skip).map fun c => cellRef c (startRow + i)
      · simp [List.range_succ, h1, h2]
      · simp [List.range_succ, h1, h2]

/-- C2 amended: the clearing pass sets every cell in the row band — declared
start row, declared max-row count, mapped columns minus the skip set — to
`None`, formula cells included (formula protection applies only to the
subsequent write phase), and leaves every cell outside that band unchanged.
(For the unit-mix pass the skip set `{"L"}` contains no mapped column, so
it excludes nothing.) -/
theorem c2_amended_clearing (ws : Ws) (startRow maxRows : ℕ)
    (columnMap : List (String × String)) (skip : List String) :
    (∀ col ∈ columnMap.map Prod.snd, col ∉ skip → ∀ i < maxRows,
      clearTableRows ws startRow maxRows columnMap skip (cellRef col (startRow + i)) =
        { value := Val.null, ftype := false }) ∧
    (∀ r : String,
      (∀ col ∈ columnMap.map Prod.snd, ∀ i < maxRows, r ≠ cellRef col (startRow + i)) →
      clearTableRows ws startRow maxRows columnMap skip r = ws r) := by
  constructor
  · intro col hcol hskip i hi
    rw [clearTableRows_get]
    have hct : col ∈ clearTargets columnMap skip := by
      simp only [clearTargets, List.mem_filter, List.mem_dedup, Bool.not_eq_true']
      exact ⟨hcol, by simpa using hskip⟩
    have hmem : cellRef col (startRow + i) ∈ (List.range maxRows).flatMap
        fun j => (clearTargets columnMap skip).map fun c => cellRef c (startRow + j) :=
      List.mem_flatMap.mpr ⟨i, List.mem_range.mpr hi, List.mem_map_of_mem _ hct⟩
    simp [hmem]
  · intro r hr
    rw [clearTableRows_get]
    have hnot : r ∉ (List.range maxRows).flatMap
        fun j => (clearTargets columnMap skip).map fun c => cellRef c (startRow + j) := by
      intro hmem
      obtain ⟨i, hi, hc⟩ := List.mem_flatMap.mp hmem
      obtain ⟨col, hcolT, hre⟩ := List.mem_map.mp hc
      have hcol : col ∈ columnMap.map Prod.snd :=
        List.mem_dedup.mp (List.mem_filter.mp hcolT).1
      exact hr col hcol i (List.mem_range.mp hi) hre.symm
    simp [hnot]

/-- Witness for the amended C2 at the unit-mix band: `H23` (a mapped column,
first band row) is cleared, `Z1` (outside the band) is untouched. -/
theorem c2_amended_clearing_witness :
    clearTableRows (fun _ => { value := Val.str "=SUM(A1:A2)", ftype := true }) 23 6
        unitMixColumns ["L"] "H23" = { value := Val.null, ftype := false } ∧
    clearTableRows (fun _ => { value := Val.str "=SUM(A1:A2)", ftype := true }) 23 6
        unitMixColumns ["L"] "Z1" = { value := Val.str "=SUM(A1:A2)", ftype := true } := by
  have h := c2_amended_clearing (fun _ => { value := Val.str "=SUM(A1:A2)", ftype := true })
    23 6 unitMixColumns ["L"]
  exact ⟨h.1 "H" (by decide) (by decide) 0 (by decide), h.2 "Z1" (by decide)⟩

/-! ## C10: applied-field records hold the raw value, cells the coerced one -/

/-- C10: whenever a write pass appends an applied-field record (shown for
the scalar-pass step and the table-row field step), the record's `value` is
the raw canonical value exactly as read from the document (pre-coercion),
that value coerces to a non-null result, and the write performed at that
step assigned the coerced value to the recorded cell. -/
theorem c10_recorded_value_pre_coercion :
    (∀ (mapped : List (String × Val)) (ws : Ws) (app : List ExportAppliedField)
        (entry : (String × String) × String) (rec : ExportAppliedField),
      (applyScalarStep mapped (ws, app) entry).2 = app ++ [rec] →
      (∃ tableVal, alistGet mapped rec.table = some (Val.dict tableVal) ∧
        (alistGet tableVal rec.field).getD Val.null = rec.value) ∧
      isNullVal (coerceValue rec.value) = false ∧
      (applyScalarStep mapped (ws, app) entry).1 rec.cell =
        { value := coerceValue rec.value, ftype := false }) ∧
    (∀ (tableName : String) (row : List (String × Val)) (targetRow : ℕ) (ws : Ws)
        (app : List ExportAppliedField) (fieldCol : String × String) (rec : ExportAppliedField),
      (applyRowField tableName row targetRow (ws, app) fieldCol).2 = app ++ [rec] →
      alistGet row rec.field = some rec.value ∧
      isNullVal (coerceValue rec.value) = false ∧
      (applyRowField tableName row targetRow (ws, app) fieldCol).1 rec.cell =
        { value := coerceValue rec.value, ftype := false }) := by
  constructor
  · intro mapped ws app entry rec h
    unfold applyScalarStep at h ⊢
    cases hm : alistGet mapped entry.1.1 with
    | none =>
      rw [hm] at h
      exact absurd (congrArg List.length h) (by simp)
    | some v =>
      cases v with
      | dict ms =>
        rw [hm] at h
        dsimp only at h ⊢
        by_cases hc : isNullVal (coerceValue ((alistGet ms entry.1.2).getD Val.null)) = true
        · rw [if_pos hc] at h
          exact absurd (congrArg List.length h) (by simp)
        · rw [if_neg hc] at h ⊢
          by_cases hf : isFormula (ws entry.2) = true
          · rw [if_pos hf] at h
            exact absurd (congrArg List.length h) (by simp)
          · rw [if_neg hf] at h ⊢
            dsimp only at h ⊢
            have hrec := List.append_cancel_left h
            injection hrec with h1 h2
            subst h1
            refine ⟨⟨ms, hm, rfl⟩, by simpa using hc, ?_⟩
            simp [setCell]
      | null =>
        rw [hm] at h
        exact absurd (congrArg List.length h) (by simp)
      | bool b =>
        rw [hm] at h
        exact absurd (congrArg List.length h) (by simp)
      | num q =>
        rw [hm] at h
        exact absurd (congrArg List.length h) (by simp)
      | str s =>
        rw [hm] at h
        exact absurd (congrArg List.length h) (by simp)
      | date y m d =>
        rw [hm] at h
        exact absurd (congrArg List.length h) (by simp)
      | list xs =>
        rw [hm] at h
        exact absurd (congrArg List.length h) (by simp)
  · intro tableName row targetRow ws app fieldCol rec h
    unfold applyRowField at h ⊢
    cases hm : alistGet row fieldCol.1 with
    | none =>
      rw [hm] at h
      exact absurd (congrArg List.length h) (by simp)
    | some raw =>
      rw [hm] at h
      dsimp only at h ⊢
      by_cases hc : isNullVal (coerceValue raw) = true
      · rw [if_pos hc] at h
        exact absurd (congrArg List.length h) (by simp)
      · rw [if_neg hc] at h ⊢
        by_cases hf : isFormula (ws (cellRef fieldCol.2 targetRow)) = true
        · rw [if_pos hf] at h
          exact absurd (congrArg List.length h) (by simp)
        · rw [if_neg hf] at h ⊢
          dsimp only at h ⊢
          have hrec := List.append_cancel_left h
          injection hrec with h1 h2
          subst h1
          exact ⟨hm, by simpa using hc, by simp [setCell]⟩

/-- Witness for C10 on a scalar percent write and a unit-mix numeric write. -/
theorem c10_recorded_value_pre_coercion_witness :
    ((∃ tableVal,
        alistGet [("growth_assumptions", Val.dict [("market_rent_growth", Val.str "3%")])]
            "growth_assumptions" = some (Val.dict tableVal) ∧
          (alistGet tableVal "market_rent_growth").getD Val.null = Val.str "3%") ∧
      isNullVal (coerceValue (Val.str "3%")) = false ∧
      (applyScalarStep [("growth_assumptions", Val.dict [("market_rent_growth", Val.str "3%")])]
          ((fun _ => { value := Val.null, ftype := false } : Ws), [])
          (("growth_assumptions", "market_rent_growth"), "I35")).1 "I35" =
        { value := coerceValue (Val.str "3%"), ftype := false }) ∧
    (alistGet [("num_units", Val.str "$4,500")] "num_units" = some (Val.str "$4,500") ∧
      isNullVal (coerceValue (Val.str "$4,500")) = false ∧
      (applyRowField "unit_mix" [("num_units", Val.str "$4,500")] 23
          ((fun _ => { value := Val.null, ftype := false } : Ws), []) ("num_units", "I")).1 "I23" =
        { value := coerceValue (Val.str "$4,500"), ftype := false }) := by
  constructor
  · exact c10_recorded_value_pre_coercion.1
      [("growth_assumptions", Val.dict [("market_rent_growth", Val.str "3%")])]
      (fun _ => { value := Val.null, ftype := false }) []
      (("growth_assumptions", "market_rent_growth"), "I35")
      { table := "growth_assumptions", field := "market_rent_growth", cell := "I35",
        value := Val.str "3%" } (by rfl)
  · exact c10_recorded_value_pre_coercion.2 "unit_mix" [("num_units", Val.str "$4,500")] 23
      (fun _ => { value := Val.null, ftype := false }) [] ("num_units", "I")
      { table := "unit_mix", field := "num_units", cell := "I23", value := Val.str "$4,500" }
      (by rfl)

/-! ## C4: canonical shape completeness -/

/-- Every schema section appears in the canonical output with its shaped
value. -/
theorem mem_ensureCanonicalShape {schema : List (String × SectionDef)}
    {mapped : List (String × Val)} {name : String} {sect : SectionDef}
    (hmem : (name, sect) ∈ schema) :
    (name, sectionShape sect (alistGet mapped name)) ∈ ensureCanonicalShape schema mapped := by
  have h := List.mem_map_of_mem
    (fun p : String × SectionDef => (p.1, sectionShape p.2 (alistGet mapped p.1))) hmem
  simpa [ensureCanonicalShape] using h

/-- C4: the canonical document contains every declared scalar-group section
as an object whose keys are exactly the declared fields (so undeclared input
fields are dropped), each value pulled from the input when present else
null — even when the input omits the section; and every declared table
section is present, with null or absent input coerced to an empty array. -/
theorem c4_shape_completeness (schema : List (String × SectionDef)) (mapped : List (String × Val))
    (name : String) (sect : SectionDef) (hmem : (name, sect) ∈ schema) :
    (sect.kind = SectionKind.scalarGroup →
      ∃ ms, (name, Val.dict ms) ∈ ensureCanonicalShape schema mapped ∧
        ms.map Prod.fst = sect.fields.map FieldDef.name ∧
        ∀ fd ∈ sect.fields,
          (fd.name,
            (match alistGet mapped name with
              | some (Val.dict src) => (alistGet src fd.name).getD Val.null
              | _ => Val.null)) ∈ ms) ∧
    (sect.kind = SectionKind.table →
      ∃ v, (name, v) ∈ ensureCanonicalShape schema mapped ∧
        ((alistGet mapped name = none ∨ alistGet mapped name = some Val.null) →
          v = Val.list [])) := by
  constructor
  · intro hk
    refine ⟨scalarShape sect.fields
      (match alistGet mapped name with
        | some (Val.dict ms) => ms
        | _ => []), ?_, ?_, ?_⟩
    · have h := @mem_ensureCanonicalShape schema mapped name sect hmem
      cases sect with
      | mk kind label fields =>
        cases hk
        simpa [sectionShape] using h
    · simp only [scalarShape, List.map_map]
      rfl
    · intro fd hfd
      rcases halist : alistGet mapped name with _ | w
      · exact List.mem_map_of_mem _ hfd
      · cases w <;> exact List.mem_map_of_mem _ hfd
  · intro hk
    refine ⟨sectionShape sect (alistGet mapped name), mem_ensureCanonicalShape hmem, ?_⟩
    intro hcase
    cases sect with
    | mk kind label fields =>
      cases hk
      rcases hcase with hnone | hnull
      · simp [sectionShape, hnone]
      · simp [sectionShape, hnull]

/-- Witness for C4 on the modelled registry with an empty input document:
the scalar group appears with both declared fields (null-valued), the table
section appears as an empty array. -/
theorem c4_shape_completeness_witness :
    (∃ ms, ("growth_assumptions", Val.dict ms) ∈ ensureCanonicalShape regGrowth.sections [] ∧
      ms.map Prod.fst = ["market_rent_growth", "taxes_growth"] ∧
      ("market_rent_growth", Val.null) ∈ ms) ∧
    (∃ v, ("unit_mix", v) ∈ ensureCanonicalShape regGrowth.sections [] ∧ v = Val.list []) := by
  constructor
  · obtain ⟨ms, hmem, hkeys, hvals⟩ := (c4_shape_completeness regGrowth.sections []
      "growth_assumptions"
      { kind := .scalarGroup, label := some "Growth Assumptions",
        fields := [{ name := "market_rent_growth", label := some "Market Rent Growth" },
                   { name := "taxes_growth", label := some "Taxes Growth" }] }
      (by decide)).1 rfl
    refine ⟨ms, hmem, by simpa using hkeys, ?_⟩
    have h := hvals { name := "market_rent_growth", label := some "Market Rent Growth" } (by decide)
    simpa using h
  · obtain ⟨v, hv, hve⟩ := (c4_shape_completeness regGrowth.sections [] "unit_mix"
      { kind := .table, label := some "Unit Mix",
        fields := [{ name := "unit_type", label := some "Unit Type" },
                   { name := "num_units", label := some "Number of Units" }] }
      (by decide)).2 rfl
    exact ⟨v, hv, hve (Or.inl rfl)⟩

/-! ## C6: formula protection across the whole export -/

/-- A successful association-list lookup returns one of the stored values. -/
theorem alistGet_mem_values {α : Type} {l : List (String × α)} {k : String} {v : α}
    (h : alistGet l k = some v) : v ∈ l.map Prod.snd := by
  induction l with
  | nil => exact absurd h (by simp [alistGet])
  | cons p rest ih =>
    rw [alistGet] at h
    by_cases hk : p.1 = k
    · rw [if_pos hk] at h
      injection h with h'
      exact h' ▸ List.mem_map_of_mem Prod.snd (List.mem_cons_self p rest)
    · rw [if_neg hk] at h
      exact List.mem_cons_of_mem _ (ih h)

/-- The scalar step either leaves the state alone or performs one recorded
write to its entry's cell. -/
theorem applyScalarStep_cases (mapped : List (String × Val)) (st : ExportState)
    (entry : (String × String) × String) :
    applyScalarStep mapped st entry = st ∨
    ∃ ms, alistGet mapped entry.1.1 = some (Val.dict ms) ∧
      isFormula (st.1 entry.2) = false ∧
      applyScalarStep mapped st entry =
        (setCell st.1 entry.2 (coerceValue ((alistGet ms entry.1.2).getD Val.null)),
         st.2 ++ [{ table := entry.1.1, field := entry.1.2, cell := entry.2,
                    value := (alistGet ms entry.1.2).getD Val.null }]) := by
  unfold applyScalarStep
  cases hm : alistGet mapped entry.1.1 with
  | none => exact Or.inl rfl
  | some v =>
    cases v with
    | dict ms =>
      dsimp only
      by_cases hc : isNullVal (coerceValue ((alistGet ms entry.1.2).getD Val.null)) = true
      · rw [if_pos hc]; exact Or.inl rfl
      · rw [if_neg hc]
        by_cases hf : isFormula (st.1 entry.2) = true
        · rw [if_pos hf]; exact Or.inl rfl
        · rw [if_neg hf]
          exact Or.inr ⟨ms, rfl, by simpa using hf, rfl⟩
    | null => exact Or.inl rfl
    | bool b => exact Or.inl rfl
    | num q => exact Or.inl rfl
    | str s => exact Or.inl rfl
    | date y m d => exact Or.inl rfl
    | list xs => exact Or.inl rfl

/-- The unit-mix field step either leaves the state alone or performs one
recorded write to its field's band cell. -/
theorem applyRowField_cases (tableName : String) (row : List (String × Val)) (targetRow : ℕ)
    (st : ExportState) (fieldCol : String × String) :
    applyRowField tableName row targetRow st fieldCol = st ∨
    ∃ raw, alistGet row fieldCol.1 = some raw ∧
      applyRowField tableName row targetRow st fieldCol =
        (setCell st.1 (cellRef fieldCol.2 targetRow) (coerceValue raw),
         st.2 ++ [{ table := tableName, field := fieldCol.1,
                    cell := cellRef fieldCol.2 targetRow, value := raw }]) := by
  unfold applyRowField
  cases hm : alistGet row fieldCol.1 with
  | none => exact Or.inl rfl
  | some raw =>
    dsimp only
    by_cases hc : isNullVal (coerceValue raw) = true
    · rw [if_pos hc]; exact Or.inl rfl
    · rw [if_neg hc]
      by_cases hf : isFormula (st.1 (cellRef fieldCol.2 targetRow)) = true
      · rw [if_pos hf]; exact Or.inl rfl
      · rw [if_neg hf]; exact Or.inr ⟨raw, rfl, rfl⟩

/-- Same shape for the membership-test-free field write. -/
theorem applyRowFieldNoCheck_cases (tableName : String) (row : List (String × Val))
    (targetRow : ℕ) (st : ExportState) (fieldCol : String × String) :
    applyRowFieldNoCheck tableName row targetRow st fieldCol = st ∨
    applyRowFieldNoCheck tableName row targetRow st fieldCol =
      (setCell st.1 (cellRef fieldCol.2 targetRow)
          (coerceValue ((alistGet row fieldCol.1).getD Val.null)),
       st.2 ++ [{ table := tableName, field := fieldCol.1,
                  cell := cellRef fieldCol.2 targetRow,
                  value := (alistGet row fieldCol.1).getD Val.null }]) := by
  unfold applyRowFieldNoCheck
  by_cases hc : isNullVal (coerceValue ((alistGet row fieldCol.1).getD Val.null)) = true
  · rw [if_pos hc]; exact Or.inl rfl
  · rw [if_neg hc]
    by_cases hf : isFormula (st.1 (cellRef fieldCol.2 targetRow)) = true
    · rw [if_pos hf]; exact Or.inl rfl
    · rw [if_neg hf]; exact Or.inr rfl

/-- Same shape for the name-column text write. -/
theorem applyNameField_cases (tableName fieldName : String) (row : List (String × Val))
    (col : String) (targetRow : ℕ) (st : ExportState) :
    applyNameField tableName fieldName row col targetRow st = st ∨
    applyNameField tableName fieldName row col targetRow st =
      (setCell st.1 (cellRef col targetRow)
          (Val.str (pyStr ((alistGet row fieldName).getD Val.null))),
       st.2 ++ [{ table := tableName, field := fieldName, cell := cellRef col targetRow,
                  value := (alistGet row fieldName).getD Val.null }]) := by
  unfold applyNameField
  by_cases hc : isNoneOrEmptyStr ((alistGet row fieldName).getD Val.null) = true
  · rw [if_pos hc]; exact Or.inl rfl
  · rw [if_neg hc]
    by_cases hf : isFormula (st.1 (cellRef col targetRow)) = true
    · rw [if_pos hf]; exact Or.inl rfl
    · rw [if_neg hf]; exact Or.inr rfl

/-- Band membership of a written cell. -/
theorem cellRef_mem_bandCells {startRow maxRows i : ℕ} {cols : List String} {col : String}
    (hcol : col ∈ cols) (hi : i < maxRows) :
    cellRef col (startRow + i) ∈ bandCells startRow maxRows cols :=
  List.mem_flatMap.mpr ⟨i, List.mem_range.mpr hi, List.mem_map_of_mem _ hcol⟩

/-- The clearing pass does not touch cells outside the band of its mapped
columns. -/
theorem clearTableRows_outside (ws : Ws) (startRow maxRows : ℕ)
    (columnMap : List (String × String)) (skip : List String) (r : String)
    (hr : r ∉ bandCells startRow maxRows (columnMap.map Prod.snd)) :
    clearTableRows ws startRow maxRows columnMap skip r = ws r := by
  rw [clearTableRows_get]
  have hnot : r ∉ (List.range maxRows).flatMap
      fun j => (clearTargets columnMap skip).map fun c => cellRef c (startRow + j) := by
    intro hmem
    obtain ⟨i, hi, hc⟩ := List.mem_flatMap.mp hmem
    obtain ⟨col, hcolT, hre⟩ := List.mem_map.mp hc
    have hcol : col ∈ columnMap.map Prod.snd :=
      List.mem_dedup.mp (List.mem_filter.mp hcolT).1
    exact hr (hre ▸ cellRef_mem_bandCells hcol (List.mem_range.mp hi))
  simp [hnot]

/-- An index appearing in the enumeration of `rows.take maxRows` is below
`maxRows`. -/
theorem enum_take_lt {rows : List Val} {maxRows : ℕ} {p : ℕ × Val}
    (hp : p ∈ (rows.take maxRows).enum) : p.1 < maxRows := by
  have h1 := List.mem_enum_iff_getElem?.mp hp
  have hlt : p.1 < (rows.take maxRows).length := by
    by_contra hge
    rw [List.getElem?_eq_none (Nat.le_of_not_lt hge)] at h1
    exact Option.noConfusion h1
  calc p.1 < (rows.take maxRows).length := hlt
    _ ≤ maxRows := by rw [List.length_take]; exact Nat.min_le_left _ _

/-- One unit-mix row leaves cells outside the band unchanged. -/
theorem applyUnitMixRow_outside (r : String) (hr : r ∉ unitMixBand) (st : ExportState)
    (idxRow : ℕ × Val) (hidx : idxRow.1 < unitMixMaxRows) :
    (applyUnitMixRow st idxRow).1 r = st.1 r := by
  unfold applyUnitMixRow
  cases hv : idxRow.2 with
  | dict row =>
    refine foldl_invariant _ (fun s2 : ExportState => s2.1 r = st.1 r) unitMixColumns st rfl ?_
    intro b fc hfc hb
    rcases applyRowField_cases "unit_mix" row (unitMixStartRow + idxRow.1) b fc with
      hcase | ⟨raw, hraw, heq⟩
    · rw [hcase]; exact hb
    · rw [heq]
      show setCell b.1 (cellRef fc.2 (unitMixStartRow + idxRow.1)) _ r = st.1 r
      simp only [setCell]
      rw [if_neg (fun hre => hr (by
        rw [hre]
        exact cellRef_mem_bandCells (List.mem_map_of_mem Prod.snd hfc) hidx))]
      exact hb
  | null => rfl
  | bool b => rfl
  | num q => rfl
  | str s => rfl
  | date y m d => rfl
  | list xs => rfl

/-- One unit-mix row only appends unit-mix records. -/
theorem applyUnitMixRow_records (st : ExportState) (idxRow : ℕ × Val) :
    ∀ rec ∈ (applyUnitMixRow st idxRow).2, rec ∈ st.2 ∨ rec.table = "unit_mix" := by
  unfold applyUnitMixRow
  cases hv : idxRow.2 with
  | dict row =>
    refine foldl_invariant _
      (fun s2 : ExportState => ∀ rec ∈ s2.2, rec ∈ st.2 ∨ rec.table = "unit_mix")
      unitMixColumns st (fun rec hrec => Or.inl hrec) ?_
    intro b fc hfc hb rec hrec
    rcases applyRowField_cases "unit_mix" row (unitMixStartRow + idxRow.1) b fc with
      hcase | ⟨raw, hraw, heq⟩
    · rw [hcase] at hrec; exact hb rec hrec
    · rw [heq] at hrec
      rcases List.mem_append.mp hrec with h1 | h1
      · exact hb rec h1
      · obtain rfl := List.mem_singleton.mp h1
        exact Or.inr rfl
  | null => exact fun rec hrec => Or.inl hrec
  | bool b => exact fun rec hrec => Or.inl hrec
  | num q => exact fun rec hrec => Or.inl hrec
  | str s => exact fun rec hrec => Or.inl hrec
  | date y m d => exact fun rec hrec => Or.inl hrec
  | list xs => exact fun rec hrec => Or.inl hrec

/-- The unit-mix pass leaves cells outside its band unchanged. -/
theorem applyUnitMix_outside (mapped : List (String × Val)) (st : ExportState) (r : String)
    (hr : r ∉ unitMixBand) : (applyUnitMix mapped st).1 r = st.1 r := by
  unfold applyUnitMix
  cases hm : alistGet mapped "unit_mix" with
  | none => rfl
  | some v =>
    cases v with
    | list rows =>
      dsimp only
      by_cases he : rows.isEmpty = true
      · rw [if_pos he]
      · rw [if_neg he]
        have hinit : (clearTableRows st.1 unitMixStartRow unitMixMaxRows unitMixColumns ["L"],
            st.2).1 r = st.1 r :=
          clearTableRows_outside st.1 _ _ _ _ r hr
        refine (foldl_invariant _ (fun s2 : ExportState => s2.1 r = st.1 r) _ _ hinit ?_ : _)
        intro b a ha hb
        exact (applyUnitMixRow_outside r hr b a (enum_take_lt ha)).trans hb
    | null => rfl
    | bool b => rfl
    | num q => rfl
    | str s => rfl
    | date y m d => rfl
    | dict ms => rfl

/-- The unit-mix pass only appends unit-mix records. -/
theorem applyUnitMix_records (mapped : List (String × Val)) (st : ExportState) :
    ∀ rec ∈ (applyUnitMix mapped st).2, rec ∈ st.2 ∨ rec.table = "unit_mix" := by
  unfold applyUnitMix
  cases hm : alistGet mapped "unit_mix" with
  | none => exact fun rec hrec => Or.inl hrec
  | some v =>
    cases v with
    | list rows =>
      dsimp only
      by_cases he : rows.isEmpty = true
      · rw [if_pos he]; exact fun rec hrec => Or.inl hrec
      · rw [if_neg he]
        refine foldl_invariant _
          (fun s2 : ExportState => ∀ rec ∈ s2.2, rec ∈ st.2 ∨ rec.table = "unit_mix")
          _ _ (fun rec hrec => Or.inl hrec) ?_
        intro b a ha hb rec hrec
        rcases applyUnitMixRow_records b a rec hrec with h1 | h1
        · exact hb rec h1
        · exact Or.inr h1
    | null => exact fun rec hrec => Or.inl hrec
    | bool b => exact fun rec hrec => Or.inl hrec
    | num q => exact fun rec hrec => Or.inl hrec
    | str s => exact fun rec hrec => Or.inl hrec
    | date y m d => exact fun rec hrec => Or.inl hrec
    | dict ms => exact fun rec hrec => Or.inl hrec

/-- One other-income row leaves cells outside the band unchanged. -/
theorem applyOtherIncomeRow_outside (r : String) (hr : r ∉ otherIncomeBand) (st : ExportState)
    (idxRow : ℕ × Val) (hidx : idxRow.1 < otherIncomeMaxRows) :
    (applyOtherIncomeRow st idxRow).1 r = st.1 r := by
  unfold applyOtherIncomeRow
  cases hv : idxRow.2 with
  | dict row =>
    have hname : ∀ b : ExportState, b.1 r = st.1 r →
        (applyNameField "other_income" "item_name" row
          ((alistGet otherIncomeColumns "item_name").getD "")
          (otherIncomeStartRow + idxRow.1) b).1 r = st.1 r := by
      intro b hb
      rcases applyNameField_cases "other_income" "item_name" row
          ((alistGet otherIncomeColumns "item_name").getD "")
          (otherIncomeStartRow + idxRow.1) b with hcase | heq
      · rw [hcase]; exact hb
      · rw [heq]
        show setCell b.1 _ _ r = st.1 r
        simp only [setCell]
        rw [if_neg (fun hre => hr (by
          rw [hre]
          exact cellRef_mem_bandCells (by decide) hidx))]
        exact hb
    refine foldl_invariant _ (fun s2 : ExportState => s2.1 r = st.1 r) otherIncomeColumns _
      (hname st rfl) ?_
    · intro b fc hfc hb
      by_cases hif : fc.1 = "item_name"
      · rw [if_pos hif]; exact hb
      · rw [if_neg hif]
        rcases applyRowFieldNoCheck_cases "other_income" row (otherIncomeStartRow + idxRow.1)
            b fc with hcase | heq
        · rw [hcase]; exact hb
        · rw [heq]
          show setCell b.1 (cellRef fc.2 (otherIncomeStartRow + idxRow.1)) _ r = st.1 r
          simp only [setCell]
          rw [if_neg (fun hre => hr (by
            rw [hre]
            exact cellRef_mem_bandCells (List.mem_map_of_mem Prod.snd hfc) hidx))]
          exact hb
  | null => rfl
  | bool b => rfl
  | num q => rfl
  | str s => rfl
  | date y m d => rfl
  | list xs => rfl

/-- One other-income row only appends other-income records. -/
theorem applyOtherIncomeRow_records (st : ExportState) (idxRow : ℕ × Val) :
    ∀ rec ∈ (applyOtherIncomeRow st idxRow).2, rec ∈ st.2 ∨ rec.table = "other_income" := by
  unfold applyOtherIncomeRow
  cases hv : idxRow.2 with
  | dict row =>
    have hname : ∀ rec ∈ (applyNameField "other_income" "item_name" row
        ((alistGet otherIncomeColumns "item_name").getD "")
        (otherIncomeStartRow + idxRow.1) st).2,
        rec ∈ st.2 ∨ rec.table = "other_income" := by
      intro rec hrec
      rcases applyNameField_cases "other_income" "item_name" row
          ((alistGet otherIncomeColumns "item_name").getD "")
          (otherIncomeStartRow + idxRow.1) st with hcase | heq
      · rw [hcase] at hrec; exact Or.inl hrec
      · rw [heq] at hrec
        rcases List.mem_append.mp hrec with h1 | h1
        · exact Or.inl h1
        · obtain rfl := List.mem_singleton.mp h1
          exact Or.inr rfl
    refine foldl_invariant _
      (fun s2 : ExportState => ∀ rec ∈ s2.2, rec ∈ st.2 ∨ rec.table = "other_income")
      otherIncomeColumns _ hname ?_
    intro b fc hfc hb rec hrec
    by_cases hif : fc.1 = "item_name"
    · rw [if_pos hif] at hrec; exact hb rec hrec
    · rw [if_neg hif] at hrec
      rcases applyRowFieldNoCheck_cases "other_income" row (otherIncomeStartRow + idxRow.1)
          b fc with hcase | heq
      · rw [hcase] at hrec; exact hb rec hrec
      · rw [heq] at hrec
        rcases List.mem_append.mp hrec with h1 | h1
        · exact hb rec h1
        · obtain rfl := List.mem_singleton.mp h1
          exact Or.inr rfl
  | null => exact fun rec hrec => Or.inl hrec
  | bool b => exact fun rec hrec => Or.inl hrec
  | num q => exact fun rec hrec => Or.inl hrec
  | str s => exact fun rec hrec => Or.inl hrec
  | date y m d => exact fun rec hrec => Or.inl hrec
  | list xs => exact fun rec hrec => Or.inl hrec

/-- The other-income pass leaves cells outside its band unchanged. -/
theorem applyOtherIncome_outside (mapped : List (String × Val)) (st : ExportState) (r : String)
    (hr : r ∉ otherIncomeBand) : (applyOtherIncome mapped st).1 r = st.1 r := by
  unfold applyOtherIncome
  cases hm : alistGet mapped "other_income" with
  | none => rfl
  | some v =>
    cases v with
    | list rows =>
      dsimp only
      by_cases he : rows.isEmpty = true
      · rw [if_pos he]
      · rw [if_neg he]
        have hinit : (clearTableRows st.1 otherIncomeStartRow otherIncomeMaxRows
            otherIncomeColumns [], st.2).1 r = st.1 r :=
          clearTableRows_outside st.1 _ _ _ _ r hr
        refine (foldl_invariant _ (fun s2 : ExportState => s2.1 r = st.1 r) _ _ hinit ?_ : _)
        intro b a ha hb
        exact (applyOtherIncomeRow_outside r hr b a (enum_take_lt ha)).trans hb
    | null => rfl
    | bool b => rfl
    | num q => rfl
    | str s => rfl
    | date y m d => rfl
    | dict ms => rfl

/-- The other-income pass only appends other-income records. -/
theorem applyOtherIncome_records (mapped : List (String × Val)) (st : ExportState) :
    ∀ rec ∈ (applyOtherIncome mapped st).2, rec ∈ st.2 ∨ rec.table = "other_income" := by
  unfold applyOtherIncome
  cases hm : alistGet mapped "other_income" with
  | none => exact fun rec hrec => Or.inl hrec
  | some v =>
    cases v with
    | list rows =>
      dsimp only
      by_cases he : rows.isEmpty = true
      · rw [if_pos he]; exact fun rec hrec => Or.inl hrec
      · rw [if_neg he]
        refine foldl_invariant _
          (fun s2 : ExportState => ∀ rec ∈ s2.2, rec ∈ st.2 ∨ rec.table = "other_income")
          _ _ (fun rec hrec => Or.inl hrec) ?_
        intro b a ha hb rec hrec
        rcases applyOtherIncomeRow_records b a rec hrec with h1 | h1
        · exact hb rec h1
        · exact Or.inr h1
    | null => exact fun rec hrec => Or.inl hrec
    | bool b => exact fun rec hrec => Or.inl hrec
    | num q => exact fun rec hrec => Or.inl hrec
    | str s => exact fun rec hrec => Or.inl hrec
    | date y m d => exact fun rec hrec => Or.inl hrec
    | dict ms => exact fun rec hrec => Or.inl hrec

/-- One waterfall row leaves cells outside the band unchanged. -/
theorem applyWaterfallRow_outside (r : String) (hr : r ∉ waterfallBand) (st : ExportState)
    (idxRow : ℕ × Val) (hidx : idxRow.1 < waterfallMaxRows) :
    (applyWaterfallRow st idxRow).1 r = st.1 r := by
  unfold applyWaterfallRow
  cases hv : idxRow.2 with
  | dict row =>
    refine foldl_invariant _ (fun s2 : ExportState => s2.1 r = st.1 r) waterfallFieldsToWrite
      st rfl ?_
    intro b field hfield hb
    cases hcol : alistGet waterfallColumns field with
    | none => exact hb
    | some col =>
      have hcmem : col ∈ waterfallColumns.map Prod.snd := alistGet_mem_values hcol
      dsimp only
      by_cases hemp : col = ""
      · rw [if_pos hemp]; exact hb
      · rw [if_neg hemp]
        by_cases htier : field = "tier_name"
        · rw [if_pos htier]
          rcases applyNameField_cases "waterfall" "tier_name" row col
              (waterfallStartRow + idxRow.1) b with hcase | heq
          · rw [hcase]; exact hb
          · rw [heq]
            show setCell b.1 _ _ r = st.1 r
            simp only [setCell]
            rw [if_neg (fun hre => hr (by
              rw [hre]
              exact cellRef_mem_bandCells hcmem hidx))]
            exact hb
        · rw [if_neg htier]
          rcases applyRowFieldNoCheck_cases "waterfall" row (waterfallStartRow + idxRow.1)
              b (field, col) with hcase | heq
          · rw [hcase]; exact hb
          · rw [heq]
            show setCell b.1 _ _ r = st.1 r
            simp only [setCell]
            rw [if_neg (fun hre => hr (by
              rw [hre]
              exact cellRef_mem_bandCells hcmem hidx))]
            exact hb
  | null => rfl
  | bool b => rfl
  | num q => rfl
  | str s => rfl
  | date y m d => rfl
  | list xs => rfl

/-- One waterfall row only appends waterfall records. -/
theorem applyWaterfallRow_records (st : ExportState) (idxRow : ℕ × Val) :
    ∀ rec ∈ (applyWaterfallRow st idxRow).2, rec ∈ st.2 ∨ rec.table = "waterfall" := by
  unfold applyWaterfallRow
  cases hv : idxRow.2 with
  | dict row =>
    refine foldl_invariant _
      (fun s2 : ExportState => ∀ rec ∈ s2.2, rec ∈ st.2 ∨ rec.table = "waterfall")
      waterfallFieldsToWrite st (fun rec hrec => Or.inl hrec) ?_
    intro b field hfield hb rec hrec
    revert hrec
    cases hcol : alistGet waterfallColumns field with
    | none => exact hb rec
    | some col =>
      dsimp only
      by_cases hemp : col = ""
      · rw [if_pos hemp]; exact hb rec
      · rw [if_neg hemp]
        by_cases htier : field = "tier_name"
        · rw [if_pos htier]
          intro hrec
          rcases applyNameField_cases "waterfall" "tier_name" row col
              (waterfallStartRow + idxRow.1) b with hcase | heq
          · rw [hcase] at hrec; exact hb rec hrec
          · rw [heq] at hrec
            rcases List.mem_append.mp hrec with h1 | h1
            · exact hb rec h1
            · obtain rfl := List.mem_singleton.mp h1
              exact Or.inr rfl
        · rw [if_neg htier]
          intro hrec
          rcases applyRowFieldNoCheck_cases "waterfall" row (waterfallStartRow + idxRow.1)
              b (field, col) with hcase | heq
          · rw [hcase] at hrec; exact hb rec hrec
          · rw [heq] at hrec
            rcases List.mem_append.mp hrec with h1 | h1
            · exact hb rec h1
            · obtain rfl := List.mem_singleton.mp h1
              exact Or.inr rfl
  | null => exact fun rec hrec => Or.inl hrec
  | bool b => exact fun rec hrec => Or.inl hrec
  | num q => exact fun rec hrec => Or.inl hrec
  | str s => exact fun rec hrec => Or.inl hrec
  | date y m d => exact fun rec hrec => Or.inl hrec
  | list xs => exact fun rec hrec => Or.inl hrec

/-- The waterfall pass leaves cells outside its band unchanged. -/
theorem applyWaterfall_outside (mapped : List (String × Val)) (st : ExportState) (r : String)
    (hr : r ∉ waterfallBand) : (applyWaterfall mapped st).1 r = st.1 r := by
  unfold applyWaterfall
  cases hm : alistGet mapped "waterfall" with
  | none => rfl
  | some v =>
    cases v with
    | list rows =>
      dsimp only
      by_cases he : rows.isEmpty = true
      · rw [if_pos he]
      · rw [if_neg he]
        have hinit : (clearTableRows st.1 waterfallStartRow waterfallMaxRows
            waterfallColumns [], st.2).1 r = st.1 r :=
          clearTableRows_outside st.1 _ _ _ _ r hr
        refine (foldl_invariant _ (fun s2 : ExportState => s2.1 r = st.1 r) _ _ hinit ?_ : _)
        intro b a ha hb
        exact (applyWaterfallRow_outside r hr b a (enum_take_lt ha)).trans hb
    | null => rfl
    | bool b => rfl
    | num q => rfl
    | str s => rfl
    | date y m d => rfl
    | dict ms => rfl

/-- The waterfall pass only appends waterfall records. -/
theorem applyWaterfall_records (mapped : List (String × Val)) (st : ExportState) :
    ∀ rec ∈ (applyWaterfall mapped st).2, rec ∈ st.2 ∨ rec.table = "waterfall" := by
  unfold applyWaterfall
  cases hm : alistGet mapped "waterfall" with
  | none => exact fun rec hrec => Or.inl hrec
  | some v =>
    cases v with
    | list rows =>
      dsimp only
      by_cases he : rows.isEmpty = true
      · rw [if_pos he]; exact fun rec hrec => Or.inl hrec
      · rw [if_neg he]
        refine foldl_invariant _
          (fun s2 : ExportState => ∀ rec ∈ s2.2, rec ∈ st.2 ∨ rec.table = "waterfall")
          _ _ (fun rec hrec => Or.inl hrec) ?_
        intro b a ha hb rec hrec
        rcases applyWaterfallRow_records b a rec hrec with h1 | h1
        · exact hb rec h1
        · exact Or.inr h1
    | null => exact fun rec hrec => Or.inl hrec
    | bool b => exact fun rec hrec => Or.inl hrec
    | num q => exact fun rec hrec => Or.inl hrec
    | str s => exact fun rec hrec => Or.inl hrec
    | date y m d => exact fun rec hrec => Or.inl hrec
    | dict ms => exact fun rec hrec => Or.inl hrec

/-- The scalar pass preserves a formula cell mapped by `(s, f) → c` and
never records `(s, f)`. -/
theorem applyScalarValues_protect (mapped : List (String × Val)) (ws : Ws)
    (app : List ExportAppliedField) (s f c : String)
    (hmap : ((s, f), c) ∈ scalarCellMap) (hform : isFormula (ws c) = true)
    (happ : ∀ rec ∈ app, ¬(rec.table = s ∧ rec.field = f)) :
    (applyScalarValues mapped (ws, app)).1 c = ws c ∧
    ∀ rec ∈ (applyScalarValues mapped (ws, app)).2, ¬(rec.table = s ∧ rec.field = f) := by
  have hcells : (scalarCellMap.map Prod.snd).Nodup := by decide
  have hkeys : (scalarCellMap.map Prod.fst).Nodup := by decide
  unfold applyScalarValues
  refine foldl_invariant _
    (fun st : ExportState => st.1 c = ws c ∧ ∀ rec ∈ st.2, ¬(rec.table = s ∧ rec.field = f))
    scalarCellMap (ws, app) ⟨rfl, happ⟩ ?_
  intro st entry hentry hst
  rcases applyScalarStep_cases mapped st entry with hcase | ⟨ms, hm, hf, heq⟩
  · rw [hcase]; exact hst
  · have hne : entry.2 ≠ c := by
      intro hec
      have hent : entry = ((s, f), c) := List.inj_on_of_nodup_map hcells hentry hmap hec
      rw [hec, hst.1, hform] at hf
      exact Bool.noConfusion hf
    rw [heq]
    constructor
    · show setCell st.1 entry.2 _ c = ws c
      simp only [setCell]
      rw [if_neg (fun h => hne h.symm)]
      exact hst.1
    · intro rec hrec
      rcases List.mem_append.mp hrec with h1 | h1
      · exact hst.2 rec h1
      · obtain rfl := List.mem_singleton.mp h1
        rintro ⟨hts, htf⟩
        have h2 : entry.1 = (s, f) := Prod.ext hts htf
        have hent : entry = ((s, f), c) := List.inj_on_of_nodup_map hkeys hentry hmap h2
        exact hne (by rw [hent])

/-- C6: when a scalar-mapped destination cell holds a formula, the whole
export leaves that cell unchanged and produces no applied-field record for
that `(section, field)` pair. -/
theorem c6_formula_protection (ws : Ws) (mapped : List (String × Val)) (s f c : String)
    (hmap : ((s, f), c) ∈ scalarCellMap) (hform : isFormula (ws c) = true) :
    (applyAll mapped ws).1 c = ws c ∧
    ∀ rec ∈ (applyAll mapped ws).2, ¬(rec.table = s ∧ rec.field = f) := by
  have hc_mem : c ∈ scalarCellMap.map Prod.snd := List.mem_map_of_mem Prod.snd hmap
  have hkey_mem : (s, f) ∈ scalarCellMap.map Prod.fst := List.mem_map_of_mem Prod.fst hmap
  have hdisj : ∀ cell ∈ scalarCellMap.map Prod.snd,
      cell ∉ unitMixBand ∧ cell ∉ otherIncomeBand ∧ cell ∉ waterfallBand := by decide
  have hsnot : ∀ key ∈ scalarCellMap.map Prod.fst,
      ¬key.1 = "unit_mix" ∧ ¬key.1 = "other_income" ∧ ¬key.1 = "waterfall" := by decide
  obtain ⟨hd1, hd2, hd3⟩ := hdisj c hc_mem
  obtain ⟨hs1, hs2, hs3⟩ := hsnot (s, f) hkey_mem
  obtain ⟨hA1, hA2⟩ :=
    applyScalarValues_protect mapped ws [] s f c hmap hform (by simp)
  unfold applyAll
  have hB1 : (applyUnitMix mapped (applyScalarValues mapped (ws, []))).1 c = ws c :=
    (applyUnitMix_outside mapped _ c hd1).trans hA1
  have hB2 : ∀ rec ∈ (applyUnitMix mapped (applyScalarValues mapped (ws, []))).2,
      ¬(rec.table = s ∧ rec.field = f) := by
    intro rec hrec
    rcases applyUnitMix_records mapped _ rec hrec with h1 | h1
    · exact hA2 rec h1
    · rintro ⟨hts, -⟩
      exact hs1 (hts ▸ h1)
  have hC1 : (applyOtherIncome mapped
      (applyUnitMix mapped (applyScalarValues mapped (ws, [])))).1 c = ws c :=
    (applyOtherIncome_outside mapped _ c hd2).trans hB1
  have hC2 : ∀ rec ∈ (applyOtherIncome mapped
      (applyUnitMix mapped (applyScalarValues mapped (ws, [])))).2,
      ¬(rec.table = s ∧ rec.field = f) := by
    intro rec hrec
    rcases applyOtherIncome_records mapped _ rec hrec with h1 | h1
    · exact hB2 rec h1
    · rintro ⟨hts, -⟩
      exact hs2 (hts ▸ h1)
  refine ⟨(applyWaterfall_outside mapped _ c hd3).trans hC1, ?_⟩
  intro rec hrec
  rcases applyWaterfall_records mapped _ rec hrec with h1 | h1
  · exact hC2 rec h1
  · rintro ⟨hts, -⟩
    exact hs3 (hts ▸ h1)

/-- Witness for C6: with `I35` (market rent growth) holding a formula, a
document supplying that field does not overwrite the cell and produces no
record for the pair. -/
theorem c6_formula_protection_witness :
    ((applyAll [("growth_assumptions", Val.dict [("market_rent_growth", Val.str "3%")])]
        (fun r => if r = "I35" then { value := Val.str "= K10 * 2", ftype := false }
          else { value := Val.null, ftype := false })).1 "I35" =
      (fun r => if r = "I35" then { value := Val.str "= K10 * 2", ftype := false }
          else { value := Val.null, ftype := false } : Ws) "I35") ∧
    ∀ rec ∈ (applyAll [("growth_assumptions", Val.dict [("market_rent_growth", Val.str "3%")])]
        (fun r => if r = "I35" then { value := Val.str "= K10 * 2", ftype := false }
          else { value := Val.null, ftype := false })).2,
      ¬(rec.table = "growth_assumptions" ∧ rec.field = "market_rent_growth") :=
  c6_formula_protection
    (fun r => if r = "I35" then { value := Val.str "= K10 * 2", ftype := false }
      else { value := Val.null, ftype := false })
    [("growth_assumptions", Val.dict [("market_rent_growth", Val.str "3%")])]
    "growth_assumptions" "market_rent_growth" "I35" (by decide) (by decide)

/-! ## C1: missing-field exclusivity -/

/-- Membership test of the `seen` set agrees with list membership. -/
theorem contains_pair_iff (l : List (String × String)) (p : String × String) :
    l.contains p = true ↔ p ∈ l := by
  induction l with
  | nil => simp
  | cons q rest ih => simp [List.contains_cons, ih]

/-- The upstream loop keeps a (pair-preserving) sublist of its input, and
its `seen` set is exactly the kept pairs plus the initial set. -/
theorem keepMissingFields_spec (reg : Registry) (canonical : List (String × Val)) :
    ∀ (l : List MissingField) (seen : List (String × String)),
      (missingPairs (keepMissingFields reg canonical l seen).1).Sublist (missingPairs l) ∧
      ∀ p, p ∈ (keepMissingFields reg canonical l seen).2 ↔
        p ∈ missingPairs (keepMissingFields reg canonical l seen).1 ∨ p ∈ seen := by
  intro l
  induction l with
  | nil =>
    intro seen
    constructor
    · exact List.Sublist.refl _
    · intro p
      show p ∈ seen ↔ p ∈ missingPairs [] ∨ p ∈ seen
      simp [missingPairs]
  | cons item rest ih =>
    intro seen
    simp only [keepMissingFields]
    by_cases h1 : (alistGet canonical item.table).isNone = true
    · rw [if_pos h1]
      exact ⟨((ih seen).1).cons _, (ih seen).2⟩
    · rw [if_neg h1]
      by_cases h2 : (alistGet reg.sections item.table).map SectionDef.kind =
          some SectionKind.table
      · rw [if_pos h2]
        dsimp only
        constructor
        · exact ((ih _).1).cons₂ _
        · intro p
          rw [(ih ((item.table, item.field) :: seen)).2 p]
          simp only [missingPairs, List.map_cons, List.mem_cons]
          tauto
      · rw [if_neg h2]
        by_cases h3 : fieldFilterBlocks (alistGet (fieldLabelsOf reg) item.table)
            item.field = true
        · rw [if_pos h3]
          exact ⟨((ih seen).1).cons _, (ih seen).2⟩
        · rw [if_neg h3]
          dsimp only
          constructor
          · exact ((ih _).1).cons₂ _
          · intro p
            rw [(ih ((item.table, item.field) :: seen)).2 p]
            simp only [missingPairs, List.map_cons, List.mem_cons, relabelMissing]
            tauto

/-- Pairs synthesized for one scalar section are duplicate-free, avoid the
incoming `seen` set, and the outgoing `seen` set is exactly the synthesized
pairs plus the incoming ones. -/
theorem synthFieldsFor_spec (reg : Registry) (tbl : String) :
    ∀ (items : List (String × Val)) (seen : List (String × String)),
      (missingPairs (synthFieldsFor reg tbl items seen).1).Nodup ∧
      (∀ p ∈ missingPairs (synthFieldsFor reg tbl items seen).1, p ∉ seen) ∧
      ∀ p, p ∈ (synthFieldsFor reg tbl items seen).2 ↔
        p ∈ missingPairs (synthFieldsFor reg tbl items seen).1 ∨ p ∈ seen := by
  intro items
  induction items with
  | nil =>
    intro seen
    exact ⟨by simp [synthFieldsFor, missingPairs], by simp [synthFieldsFor, missingPairs],
      fun p => by simp [synthFieldsFor, missingPairs]⟩
  | cons fv rest ih =>
    intro seen
    obtain ⟨fname, fval⟩ := fv
    simp only [synthFieldsFor]
    by_cases h1 : seen.contains (tbl, fname) = true
    · rw [if_pos h1]
      exact ih seen
    · rw [if_neg h1]
      by_cases h2 : isNullOrBlank fval = true
      · rw [if_pos h2]
        dsimp only
        obtain ⟨hnd, havoid, hseen⟩ := ih ((tbl, fname) :: seen)
        have hhead : (tbl, fname) ∉ missingPairs (synthFieldsFor reg tbl rest
            ((tbl, fname) :: seen)).1 :=
          fun hmem => havoid _ hmem (List.mem_cons_self _ _)
        refine ⟨?_, ?_, ?_⟩
        · exact List.nodup_cons.mpr ⟨hhead, hnd⟩
        · intro p hp
          simp only [missingPairs, List.map_cons, List.mem_cons] at hp
          rcases hp with rfl | hp
          · exact fun hin => (by simpa [contains_pair_iff] using h1 : (tbl, fname) ∉ seen) hin
          · intro hin
            exact havoid p hp (List.mem_cons_of_mem _ hin)
        · intro p
          rw [hseen p]
          simp only [missingPairs, List.map_cons, List.mem_cons]
          tauto
      · rw [if_neg h2]
        exact ih seen

/-- The synthesis loop produces duplicate-free pairs outside `seen` and
grows `seen` by exactly those pairs. -/
theorem synthMissingFields_spec (reg : Registry) :
    ∀ (cl : List (String × Val)) (seen : List (String × String)),
      (missingPairs (synthMissingFields reg cl seen).1).Nodup ∧
      (∀ p ∈ missingPairs (synthMissingFields reg cl seen).1, p ∉ seen) ∧
      ∀ p, p ∈ (synthMissingFields reg cl seen).2 ↔
        p ∈ missingPairs (synthMissingFields reg cl seen).1 ∨ p ∈ seen := by
  intro cl
  induction cl with
  | nil =>
    intro seen
    exact ⟨by simp [synthMissingFields, missingPairs], by simp [synthMissingFields, missingPairs],
      fun p => by simp [synthMissingFields, missingPairs]⟩
  | cons tv rest ih =>
    intro seen
    obtain ⟨tbl, value⟩ := tv
    simp only [synthMissingFields]
    by_cases h1 : (alistGet reg.sections tbl).map SectionDef.kind = some SectionKind.scalarGroup
    · rw [if_pos h1]
      dsimp only
      set items := dictItems value
      obtain ⟨hnd1, havoid1, hseen1⟩ := synthFieldsFor_spec reg tbl items seen
      obtain ⟨hnd2, havoid2, hseen2⟩ := ih (synthFieldsFor reg tbl items seen).2
      have hpairs : missingPairs ((synthFieldsFor reg tbl items seen).1 ++
          (synthMissingFields reg rest (synthFieldsFor reg tbl items seen).2).1) =
          missingPairs (synthFieldsFor reg tbl items seen).1 ++
          missingPairs (synthMissingFields reg rest (synthFieldsFor reg tbl items seen).2).1 := by
        simp [missingPairs]
      refine ⟨?_, ?_, ?_⟩
      · rw [hpairs]
        refine List.Nodup.append hnd1 hnd2 ?_
        intro p hp1 hp2
        exact havoid2 p hp2 ((hseen1 p).mpr (Or.inl hp1))
      · rw [hpairs]
        intro p hp
        rcases List.mem_append.mp hp with hp | hp
        · exact havoid1 p hp
        · intro hin
          exact havoid2 p hp ((hseen1 p).mpr (Or.inr hin))
      · intro p
        rw [hpairs, hseen2 p, List.mem_append]
        rw [hseen1 p]
        tauto
    · rw [if_neg h1]
      exact ih seen

/-- Helper form of the amended C1 on `_normalize_missing_fields` itself. -/
theorem normalizeMissingFields_nodup (reg : Registry) (missing : List MissingField)
    (canonical : List (String × Val)) (hnd : (missingPairs missing).Nodup) :
    (missingPairs (normalizeMissingFields reg missing canonical)).Nodup := by
  unfold normalizeMissingFields
  have hkeep := keepMissingFields_spec reg canonical missing []
  have hsynth := synthMissingFields_spec reg canonical
    (keepMissingFields reg canonical missing []).2
  have hpairs : missingPairs ((keepMissingFields reg canonical missing []).1 ++
      (synthMissingFields reg canonical (keepMissingFields reg canonical missing []).2).1) =
      missingPairs (keepMissingFields reg canonical missing []).1 ++
      missingPairs (synthMissingFields reg canonical
        (keepMissingFields reg canonical missing []).2).1 := by
    simp [missingPairs]
  rw [hpairs]
  refine List.Nodup.append (hkeep.1.nodup hnd) hsynth.1 ?_
  intro p hp1 hp2
  have hseen : p ∈ (keepMissingFields reg canonical missing []).2 :=
    (hkeep.2 p).mpr (Or.inl hp1)
  exact hsynth.2.1 p hp2 hseen

/-- Counterexample to C1 as stated: the upstream list may itself contain a
duplicated `(section, field)` pair, and the upstream loop appends kept
entries without consulting `seen`, so the normalized report repeats the
pair. -/
theorem c1_counterexample :
    ¬ (missingPairs (finalizeMapping regGrowth 0
        { mapped := []
          missing_fields := [
            { table := "growth_assumptions", field := "market_rent_growth",
              reason := "not found" },
            { table := "growth_assumptions", field := "market_rent_growth",
              reason := "not found" }]
          metadata := { generated_at := 0 } }).missing_fields).Nodup := by
  decide

/-- C1 amended: the normalized missing-field report has at most one entry
per `(section, field)` pair provided the upstream report's pairs are
themselves duplicate-free; synthesized entries never duplicate an upstream
pair or each other (upstream duplicates are not collapsed). -/
theorem c1_amended_exclusivity (reg : Registry) (now : ℕ) (r : MappingResult)
    (hnd : (missingPairs r.missing_fields).Nodup) :
    (missingPairs (finalizeMapping reg now r).missing_fields).Nodup :=
  normalizeMissingFields_nodup reg r.missing_fields
    (ensureCanonicalShape reg.sections r.mapped) hnd

/-- Witness for the amended C1: a duplicate-free upstream report (one table
entry, one scalar entry) stays duplicate-free after normalization, with the
synthesized entries added. -/
theorem c1_amended_exclusivity_witness :
    (missingPairs (finalizeMapping regGrowth 0
        { mapped := []
          missing_fields := [
            { table := "unit_mix", field := "rent", reason := "no rows" },
            { table := "growth_assumptions", field := "market_rent_growth",
              reason := "not found" }]
          metadata := { generated_at := 0 } }).missing_fields).Nodup :=
  c1_amended_exclusivity regGrowth 0
    { mapped := []
      missing_fields := [
        { table := "unit_mix", field := "rent", reason := "no rows" },
        { table := "growth_assumptions", field := "market_rent_growth",
          reason := "not found" }]
      metadata := { generated_at := 0 } } (by decide)

/-! ## C3: idempotent normalization -/

theorem pyOrStr_self (a : Option String) : pyOrStr a a = a := by
  cases a with
  | none => rfl
  | some s =>
    by_cases h : s = "" <;> simp [pyOrStr, h]

theorem pyOrStr_right (a b : Option String) : pyOrStr (pyOrStr a b) b = pyOrStr a b := by
  cases a with
  | none => exact pyOrStr_self b
  | some s =>
    by_cases h : s = ""
    · subst h
      have h1 : pyOrStr (some "") b = b := by simp [pyOrStr]
      rw [h1, pyOrStr_self]
    · simp [pyOrStr, h]

/-- Relabelling is idempotent (labels, once attached, are fixpoints). -/
theorem relabelMissing_idem (reg : Registry) (e : MissingField) :
    relabelMissing reg (relabelMissing reg e) = relabelMissing reg e := by
  cases e
  simp [relabelMissing, pyOrStr_right]

/-- Lookup in a key-preserving mapped association list with duplicate-free
keys finds the image of the unique entry. -/
theorem alistGet_map_entry {α β : Type} (g : String × α → β) {l : List (String × α)}
    {k : String} {v : α} (hnd : (l.map Prod.fst).Nodup) (hmem : (k, v) ∈ l) :
    alistGet (l.map fun p => (p.1, g p)) k = some (g (k, v)) := by
  induction l with
  | nil => cases hmem
  | cons hd tl ih =>
    obtain ⟨k', v'⟩ := hd
    simp only [List.map_cons] at hnd ⊢
    rw [alistGet]
    rcases List.mem_cons.mp hmem with heq | htl
    · cases heq
      rw [if_pos rfl]
    · have hk : ¬k' = k := by
        intro h
        subst h
        exact (List.nodup_cons.mp hnd).1 (List.mem_map_of_mem Prod.fst htl)
      rw [if_neg hk]
      exact ih (List.nodup_cons.mp hnd).2 htl

/-- Lookup with duplicate-free keys finds the unique entry. -/
theorem alistGet_of_nodup {α : Type} {l : List (String × α)}
    (hnd : (l.map Prod.fst).Nodup) {k : String} {v : α} (hmem : (k, v) ∈ l) :
    alistGet l k = some v := by
  induction l with
  | nil => cases hmem
  | cons hd tl ih =>
    obtain ⟨k', v'⟩ := hd
    simp only [List.map_cons] at hnd
    rw [alistGet]
    rcases List.mem_cons.mp hmem with heq | htl
    · cases heq
      rw [if_pos rfl]
    · have hk : ¬k' = k := by
        intro h
        subst h
        exact (List.nodup_cons.mp hnd).1 (List.mem_map_of_mem Prod.fst htl)
      rw [if_neg hk]
      exact ih (List.nodup_cons.mp hnd).2 htl

/-- Lookup of a present key is not `none` (no duplicate-freeness needed). -/
theorem alistGet_isNone_false_of_mem {α : Type} {l : List (String × α)} {k : String} {v : α}
    (hmem : (k, v) ∈ l) : (alistGet l k).isNone = false := by
  induction l with
  | nil => cases hmem
  | cons hd tl ih =>
    obtain ⟨k', v'⟩ := hd
    rw [alistGet]
    by_cases hk : k' = k
    · rw [if_pos hk]; rfl
    · rw [if_neg hk]
      rcases List.mem_cons.mp hmem with heq | htl
      · cases heq; exact absurd rfl hk
      · exact ih htl

/-- Canonical-shape lookup with duplicate-free section names. -/
theorem alistGet_ensure {schema : List (String × SectionDef)} {mapped : List (String × Val)}
    {name : String} {sect : SectionDef} (hnd : (schema.map Prod.fst).Nodup)
    (hmem : (name, sect) ∈ schema) :
    alistGet (ensureCanonicalShape schema mapped) name =
      some (sectionShape sect (alistGet mapped name)) :=
  alistGet_map_entry (fun p => sectionShape p.2 (alistGet mapped p.1)) hnd hmem

/-- Table-label lookup with duplicate-free section names. -/
theorem alistGet_tableLabels {reg : Registry} {name : String} {sect : SectionDef}
    (hnd : (reg.sections.map Prod.fst).Nodup) (hmem : (name, sect) ∈ reg.sections) :
    alistGet (tableLabelsOf reg) name = some (labelOrName name sect.label) :=
  alistGet_map_entry (fun p : String × SectionDef => labelOrName p.1 p.2.label) hnd hmem

/-- Field-label lookup with duplicate-free section names. -/
theorem alistGet_fieldLabels {reg : Registry} {name : String} {sect : SectionDef}
    (hnd : (reg.sections.map Prod.fst).Nodup) (hmem : (name, sect) ∈ reg.sections) :
    alistGet (fieldLabelsOf reg) name =
      some (sect.fields.map fun f => (f.name, labelOrName f.name f.label)) := by
  exact alistGet_map_entry
    (fun p : String × SectionDef => p.2.fields.map fun f => (f.name, labelOrName f.name f.label))
    hnd hmem

/-- Lookup of a declared field in a field-keyed mapped list is not `none`. -/
theorem alistGet_fieldmap_isNone_false {β : Type} (g : FieldDef → β) {fields : List FieldDef}
    {n : String} (h : n ∈ fields.map FieldDef.name) :
    (alistGet (fields.map fun f => (f.name, g f)) n).isNone = false := by
  induction fields with
  | nil => simp at h
  | cons f fs ih =>
    simp only [List.map_cons] at h ⊢
    rw [alistGet]
    by_cases hf : f.name = n
    · rw [if_pos hf]; rfl
    · rw [if_neg hf]
      rcases List.mem_cons.mp h with heq | htl
      · exact absurd heq.symm hf
      · exact ih htl

/-- Lookup of a declared field in the shaped scalar object. -/
theorem alistGet_scalarShape {fields : List FieldDef} {src : List (String × Val)} {n : String}
    (h : n ∈ fields.map FieldDef.name) :
    alistGet (scalarShape fields src) n = some ((alistGet src n).getD Val.null) := by
  induction fields with
  | nil => simp at h
  | cons f fs ih =>
    simp only [List.map_cons] at h
    rw [scalarShape, List.map_cons, alistGet]
    by_cases hf : f.name = n
    · rw [if_pos hf, hf]
    · rw [if_neg hf]
      rcases List.mem_cons.mp h with heq | htl
      · exact absurd heq.symm hf
      · exact ih htl

/-- Re-shaping a shaped section value is the identity. -/
theorem sectionShape_idem (sect : SectionDef) (v : Option Val) :
    sectionShape sect (some (sectionShape sect v)) = sectionShape sect v := by
  cases sect with
  | mk kind label fields =>
    cases kind with
    | scalarGroup =>
      dsimp only [sectionShape]
      congr 1
      refine List.map_congr_left fun f hf => ?_
      rw [alistGet_scalarShape (List.mem_map_of_mem FieldDef.name hf)]
      rfl
    | table =>
      cases v with
      | none => rfl
      | some w => cases w <;> rfl

/-- Shape enforcement is idempotent (duplicate-free section names). -/
theorem ensureCanonicalShape_idem (schema : List (String × SectionDef))
    (mapped : List (String × Val)) (hnd : (schema.map Prod.fst).Nodup) :
    ensureCanonicalShape schema (ensureCanonicalShape schema mapped) =
      ensureCanonicalShape schema mapped := by
  apply List.map_congr_left
  intro p hp
  obtain ⟨n, sect⟩ := p
  have h1 := @alistGet_ensure schema mapped n sect hnd hp
  show (n, sectionShape sect (alistGet (ensureCanonicalShape schema mapped) n)) =
    (n, sectionShape sect (alistGet mapped n))
  rw [h1, sectionShape_idem]

/-- Boolean negation of equality with `true`. -/
theorem bool_not_true {b : Bool} (h : ¬b = true) : b = false := by
  cases b
  · rfl
  · exact absurd rfl h

/-- Every entry kept by the upstream loop satisfies the output invariant. -/
theorem keepMissingFields_entries_inv (reg : Registry) (canonical : List (String × Val)) :
    ∀ (l : List MissingField) (seen : List (String × String)) (e : MissingField),
      e ∈ (keepMissingFields reg canonical l seen).1 → keptEntryInv reg canonical e := by
  intro l
  induction l with
  | nil =>
    intro seen e he
    exact absurd he (List.not_mem_nil e)
  | cons item rest ih =>
    intro seen e he
    simp only [keepMissingFields] at he
    by_cases h1 : (alistGet canonical item.table).isNone = true
    · rw [if_pos h1] at he
      exact ih seen e he
    · rw [if_neg h1] at he
      by_cases h2 : (alistGet reg.sections item.table).map SectionDef.kind =
          some SectionKind.table
      · rw [if_pos h2] at he
        dsimp only at he
        rcases List.mem_cons.mp he with rfl | he'
        · exact ⟨bool_not_true h1, Or.inl h2⟩
        · exact ih _ e he'
      · rw [if_neg h2] at he
        by_cases h3 : fieldFilterBlocks (alistGet (fieldLabelsOf reg) item.table)
            item.field = true
        · rw [if_pos h3] at he
          exact ih seen e he
        · rw [if_neg h3] at he
          dsimp only at he
          rcases List.mem_cons.mp he with rfl | he'
          · exact ⟨bool_not_true h1,
              Or.inr ⟨h2, bool_not_true h3, relabelMissing_idem reg item⟩⟩
          · exact ih _ e he'

/-- Every synthesized entry for a section is the canonical synthesized
record of one of that section's field names. -/
theorem synthFieldsFor_entries (reg : Registry) (tbl : String) :
    ∀ (items : List (String × Val)) (seen : List (String × String)) (e : MissingField),
      e ∈ (synthFieldsFor reg tbl items seen).1 →
      ∃ fname, fname ∈ items.map Prod.fst ∧
        e = { table := tbl, field := fname, reason := "Value missing after mapping",
              confidence := none, source_fields := none,
              table_label := alistGet (tableLabelsOf reg) tbl,
              field_label := alistGet ((alistGet (fieldLabelsOf reg) tbl).getD []) fname } := by
  intro items
  induction items with
  | nil =>
    intro seen e he
    exact absurd he (List.not_mem_nil e)
  | cons fv rest ih =>
    intro seen e he
    obtain ⟨fn, fvv⟩ := fv
    simp only [synthFieldsFor] at he
    by_cases h1 : seen.contains (tbl, fn) = true
    · rw [if_pos h1] at he
      obtain ⟨fname, hm, hh⟩ := ih seen e he
      exact ⟨fname, List.mem_cons_of_mem _ hm, hh⟩
    · rw [if_neg h1] at he
      by_cases h2 : isNullOrBlank fvv = true
      · rw [if_pos h2] at he
        dsimp only at he
        rcases List.mem_cons.mp he with rfl | he'
        · exact ⟨fn, List.mem_cons_self _ _, rfl⟩
        · obtain ⟨fname, hm, hh⟩ := ih _ e he'
          exact ⟨fname, List.mem_cons_of_mem _ hm, hh⟩
      · rw [if_neg h2] at he
        obtain ⟨fname, hm, hh⟩ := ih seen e he
        exact ⟨fname, List.mem_cons_of_mem _ hm, hh⟩

/-- Every entry synthesized over (a suffix of) the canonical document
satisfies the output invariant (duplicate-free section names). -/
theorem synthMissingFields_entries_inv (reg : Registry) (mapped : List (String × Val))
    (hnd : (reg.sections.map Prod.fst).Nodup) :
    ∀ (cl : List (String × Val)),
      (∀ p ∈ cl, p ∈ ensureCanonicalShape reg.sections mapped) →
      ∀ (seen : List (String × String)) (e : MissingField),
        e ∈ (synthMissingFields reg cl seen).1 →
        keptEntryInv reg (ensureCanonicalShape reg.sections mapped) e := by
  intro cl
  induction cl with
  | nil =>
    intro _ seen e he
    exact absurd he (List.not_mem_nil e)
  | cons tv rest ih =>
    intro hsub seen e he
    obtain ⟨tbl, value⟩ := tv
    simp only [synthMissingFields] at he
    by_cases h1 : (alistGet reg.sections tbl).map SectionDef.kind = some SectionKind.scalarGroup
    · rw [if_pos h1] at he
      dsimp only at he
      rcases List.mem_append.mp he with he1 | he2
      · obtain ⟨fname, hfname, rfl⟩ := synthFieldsFor_entries reg tbl _ _ e he1
        have hmemc : (tbl, value) ∈ ensureCanonicalShape reg.sections mapped :=
          hsub _ (List.mem_cons_self _ _)
        obtain ⟨⟨n, sect⟩, hpsect, hpe⟩ := List.mem_map.mp hmemc
        obtain ⟨heq1, hval⟩ : n = tbl ∧ sectionShape sect (alistGet mapped n) = value :=
          ⟨congrArg Prod.fst hpe, congrArg Prod.snd hpe⟩
        subst heq1
        have hsect := alistGet_of_nodup hnd hpsect
        have hkind : sect.kind = SectionKind.scalarGroup := by
          rw [hsect] at h1
          simpa using h1
        have hvd : value = Val.dict (scalarShape sect.fields
            (match alistGet mapped n with | some (Val.dict ms) => ms | _ => [])) := by
          rw [← hval]
          cases sect with
          | mk kind lbl fields =>
            cases hkind
            rfl
        have hfields : fname ∈ sect.fields.map FieldDef.name := by
          rw [hvd] at hfname
          have hkeys : (scalarShape sect.fields
              (match alistGet mapped n with | some (Val.dict ms) => ms | _ => [])).map
              Prod.fst = sect.fields.map FieldDef.name := by
            simp only [scalarShape, List.map_map]
            rfl
          rw [← hkeys]
          exact hfname
        refine ⟨alistGet_isNone_false_of_mem hmemc, Or.inr ⟨?_, ?_, ?_⟩⟩
        · rw [hsect]
          simp [hkind]
        · show fieldFilterBlocks (alistGet (fieldLabelsOf reg) n) fname = false
          rw [alistGet_fieldLabels hnd hpsect]
          unfold fieldFilterBlocks
          dsimp only
          rw [alistGet_fieldmap_isNone_false (fun f => labelOrName f.name f.label) hfields]
          simp
        · show relabelMissing reg _ = _
          simp [relabelMissing, pyOrStr_self]
      · exact ih (fun p hp => hsub p (List.mem_cons_of_mem _ hp)) _ e he2
    · rw [if_neg h1] at he
      exact ih (fun p hp => hsub p (List.mem_cons_of_mem _ hp)) seen e he

/-- On a list of invariant entries the upstream loop is the identity (it
keeps everything verbatim while recording the pairs). -/
theorem keepMissingFields_fixpoint (reg : Registry) (canonical : List (String × Val)) :
    ∀ (l : List MissingField), (∀ e ∈ l, keptEntryInv reg canonical e) →
      ∀ seen, keepMissingFields reg canonical l seen = (l, (missingPairs l).reverse ++ seen) := by
  intro l
  induction l with
  | nil =>
    intro _ seen
    rfl
  | cons item rest ih =>
    intro hinv seen
    obtain ⟨h1, h2⟩ := hinv item (List.mem_cons_self _ _)
    simp only [keepMissingFields]
    rw [if_neg (by simp [h1])]
    rcases h2 with htab | ⟨hknot, hblocks, hrel⟩
    · rw [if_pos htab]
      rw [ih (fun e he => hinv e (List.mem_cons_of_mem _ he)) ((item.table, item.field) :: seen)]
      simp [missingPairs, List.reverse_cons, List.append_assoc]
    · rw [if_neg hknot, if_neg (by simp [hblocks])]
      rw [ih (fun e he => hinv e (List.mem_cons_of_mem _ he)) ((item.table, item.field) :: seen)]
      rw [hrel]
      simp [missingPairs, List.reverse_cons, List.append_assoc]

/-- A blank field of one section is covered by the synthesis loop: its pair
ends up among the synthesized pairs or was already seen. -/
theorem synthFieldsFor_covers (reg : Registry) (tbl : String) :
    ∀ (items : List (String × Val)) (seen : List (String × String)) (fname : String) (fval : Val),
      (fname, fval) ∈ items → isNullOrBlank fval = true →
      (tbl, fname) ∈ missingPairs (synthFieldsFor reg tbl items seen).1 ∨
        (tbl, fname) ∈ seen := by
  intro items
  induction items with
  | nil =>
    intro seen fname fval hmem _
    exact absurd hmem (List.not_mem_nil _)
  | cons hd rest ih =>
    intro seen fname fval hmem hblank
    obtain ⟨fn, fv⟩ := hd
    simp only [synthFieldsFor]
    by_cases h1 : seen.contains (tbl, fn) = true
    · rw [if_pos h1]
      rcases List.mem_cons.mp hmem with heq | htl
      · cases heq
        exact Or.inr ((contains_pair_iff _ _).mp h1)
      · exact ih seen fname fval htl hblank
    · rw [if_neg h1]
      by_cases h2 : isNullOrBlank fv = true
      · rw [if_pos h2]
        dsimp only
        rcases List.mem_cons.mp hmem with heq | htl
        · cases heq
          exact Or.inl (List.mem_cons_self _ _)
        · rcases ih ((tbl, fn) :: seen) fname fval htl hblank with hin | hseen
          · exact Or.inl (List.mem_cons_of_mem _ hin)
          · rcases List.mem_cons.mp hseen with heq2 | hs
            · exact Or.inl (by rw [heq2]; exact List.mem_cons_self _ _)
            · exact Or.inr hs
      · rw [if_neg h2]
        rcases List.mem_cons.mp hmem with heq | htl
        · cases heq
          exact absurd hblank h2
        · exact ih seen fname fval htl hblank

/-- `missingPairs` distributes over append. -/
theorem missingPairs_append (a b : List MissingField) :
    missingPairs (a ++ b) = missingPairs a ++ missingPairs b := by
  simp [missingPairs]

/-- A blank scalar field of any section of the iterated document is covered
by the synthesis loop. -/
theorem synthMissingFields_covers (reg : Registry) :
    ∀ (cl : List (String × Val)) (seen : List (String × String)) (tbl : String)
      (ms : List (String × Val)),
      (tbl, Val.dict ms) ∈ cl →
      (alistGet reg.sections tbl).map SectionDef.kind = some SectionKind.scalarGroup →
      ∀ (fname : String) (fval : Val),
        (fname, fval) ∈ ms → isNullOrBlank fval = true →
        (tbl, fname) ∈ missingPairs (synthMissingFields reg cl seen).1 ∨
          (tbl, fname) ∈ seen := by
  intro cl
  induction cl with
  | nil =>
    intro seen tbl ms hmem
    exact absurd hmem (List.not_mem_nil _)
  | cons tv rest ih =>
    intro seen tbl ms hmem hscal fname fval hfv hblank
    obtain ⟨t, v⟩ := tv
    rcases List.mem_cons.mp hmem with heq | htl
    · rw [Prod.mk.injEq] at heq
      obtain ⟨h1, h2⟩ := heq
      subst h1
      subst h2
      simp only [synthMissingFields]
      rw [if_pos hscal]
      dsimp only [dictItems]
      rw [missingPairs_append]
      rcases synthFieldsFor_covers reg tbl ms seen fname fval hfv hblank with hin | hs
      · exact Or.inl (List.mem_append.mpr (Or.inl hin))
      · exact Or.inr hs
    · simp only [synthMissingFields]
      by_cases h1 : (alistGet reg.sections t).map SectionDef.kind = some SectionKind.scalarGroup
      · rw [if_pos h1]
        dsimp only
        set items := dictItems v
        rw [missingPairs_append]
        rcases ih (synthFieldsFor reg t items seen).2 tbl ms htl hscal fname fval hfv hblank
          with hin | hs
        · exact Or.inl (List.mem_append.mpr (Or.inr hin))
        · rcases ((synthFieldsFor_spec reg t items seen).2.2 _).mp hs with hh | hh
          · exact Or.inl (List.mem_append.mpr (Or.inl hh))
          · exact Or.inr hh
      · rw [if_neg h1]
        exact ih seen tbl ms htl hscal fname fval hfv hblank

/-- When every blank pair of the iterated fields is already seen, the inner
synthesis loop adds nothing. -/
theorem synthFieldsFor_skip (reg : Registry) (tbl : String) :
    ∀ (items : List (String × Val)) (seen : List (String × String)),
      (∀ fname fval, (fname, fval) ∈ items → isNullOrBlank fval = true → (tbl, fname) ∈ seen) →
      synthFieldsFor reg tbl items seen = ([], seen) := by
  intro items
  induction items with
  | nil =>
    intro seen _
    rfl
  | cons hd rest ih =>
    intro seen hcov
    obtain ⟨fn, fv⟩ := hd
    simp only [synthFieldsFor]
    by_cases h1 : seen.contains (tbl, fn) = true
    · rw [if_pos h1]
      exact ih seen fun fname fval hm hb => hcov fname fval (List.mem_cons_of_mem _ hm) hb
    · rw [if_neg h1]
      by_cases h2 : isNullOrBlank fv = true
      · exact absurd ((contains_pair_iff _ _).mpr
          (hcov fn fv (List.mem_cons_self _ _) h2)) h1
      · rw [if_neg h2]
        exact ih seen fun fname fval hm hb => hcov fname fval (List.mem_cons_of_mem _ hm) hb

/-- Skip lemma for the inner loop stated over the item extraction of a raw
section value. -/
theorem synthFieldsFor_match_skip (reg : Registry) (t : String) (v : Val)
    (seen : List (String × String))
    (hcov : ∀ ms, v = Val.dict ms → ∀ fname fval, (fname, fval) ∈ ms →
      isNullOrBlank fval = true → (t, fname) ∈ seen) :
    synthFieldsFor reg t (dictItems v) seen = ([], seen) := by
  cases v
  case dict ms => exact synthFieldsFor_skip reg t ms seen (hcov ms rfl)
  all_goals rfl

/-- When every blank scalar pair of the iterated document is already seen,
the synthesis loop adds nothing. -/
theorem synthMissingFields_skip (reg : Registry) :
    ∀ (cl : List (String × Val)) (seen : List (String × String)),
      (∀ tbl ms, (tbl, Val.dict ms) ∈ cl →
        (alistGet reg.sections tbl).map SectionDef.kind = some SectionKind.scalarGroup →
        ∀ fname fval, (fname, fval) ∈ ms →
          isNullOrBlank fval = true → (tbl, fname) ∈ seen) →
      synthMissingFields reg cl seen = ([], seen) := by
  intro cl
  induction cl with
  | nil =>
    intro seen _
    rfl
  | cons tv rest ih =>
    intro seen hcov
    obtain ⟨t, v⟩ := tv
    simp only [synthMissingFields]
    by_cases h1 : (alistGet reg.sections t).map SectionDef.kind = some SectionKind.scalarGroup
    · rw [if_pos h1]
      rw [synthFieldsFor_match_skip reg t v seen
        (fun ms hv fname fval hm hb =>
          hcov t ms (hv ▸ List.mem_cons_self (t, v) rest) h1 fname fval hm hb)]
      dsimp only
      rw [ih seen
        (fun tbl ms hm hsc fname fval hfv hb =>
          hcov tbl ms (List.mem_cons_of_mem _ hm) hsc fname fval hfv hb)]
      rfl
    · rw [if_neg h1]
      exact ih seen fun tbl ms hm hsc fname fval hfv hb =>
        hcov tbl ms (List.mem_cons_of_mem _ hm) hsc fname fval hfv hb

/-- Running `_normalize_missing_fields` a second time over the same canonical
document returns its first output unchanged. -/
theorem normalizeMissingFields_stable (reg : Registry) (mapped : List (String × Val))
    (missing : List MissingField) (hnd : (reg.sections.map Prod.fst).Nodup) :
    normalizeMissingFields reg
      (normalizeMissingFields reg missing (ensureCanonicalShape reg.sections mapped))
      (ensureCanonicalShape reg.sections mapped) =
      normalizeMissingFields reg missing (ensureCanonicalShape reg.sections mapped) := by
  have hinv : ∀ e ∈ normalizeMissingFields reg missing (ensureCanonicalShape reg.sections mapped),
      keptEntryInv reg (ensureCanonicalShape reg.sections mapped) e := by
    intro e he
    simp only [normalizeMissingFields] at he
    rcases List.mem_append.mp he with he1 | he2
    · exact keepMissingFields_entries_inv reg _ missing [] e he1
    · exact synthMissingFields_entries_inv reg mapped hnd _ (fun p hp => hp) _ e he2
  have hcov : ∀ tbl ms,
      (tbl, Val.dict ms) ∈ ensureCanonicalShape reg.sections mapped →
      (alistGet reg.sections tbl).map SectionDef.kind = some SectionKind.scalarGroup →
      ∀ fname fval, (fname, fval) ∈ ms → isNullOrBlank fval = true →
        (tbl, fname) ∈ (missingPairs (normalizeMissingFields reg missing
          (ensureCanonicalShape reg.sections mapped))).reverse ++
          ([] : List (String × String)) := by
    intro tbl ms hmem hscal fname fval hfv hblank
    rw [List.append_nil, List.mem_reverse]
    have hpout : missingPairs (normalizeMissingFields reg missing
        (ensureCanonicalShape reg.sections mapped)) =
        missingPairs
          (keepMissingFields reg (ensureCanonicalShape reg.sections mapped) missing []).1 ++
        missingPairs (synthMissingFields reg (ensureCanonicalShape reg.sections mapped)
          (keepMissingFields reg (ensureCanonicalShape reg.sections mapped) missing []).2).1 := by
      simp only [normalizeMissingFields]
      exact missingPairs_append _ _
    rw [hpout, List.mem_append]
    rcases synthMissingFields_covers reg (ensureCanonicalShape reg.sections mapped)
        (keepMissingFields reg (ensureCanonicalShape reg.sections mapped) missing []).2
        tbl ms hmem hscal fname fval hfv hblank with hin | hs
    · exact Or.inr hin
    · rcases ((keepMissingFields_spec reg _ missing []).2 _).mp hs with hk | hk
      · exact Or.inl hk
      · exact absurd hk (List.not_mem_nil _)
  show (keepMissingFields reg (ensureCanonicalShape reg.sections mapped)
      (normalizeMissingFields reg missing (ensureCanonicalShape reg.sections mapped)) []).1 ++
    (synthMissingFields reg (ensureCanonicalShape reg.sections mapped)
      (keepMissingFields reg (ensureCanonicalShape reg.sections mapped)
        (normalizeMissingFields reg missing (ensureCanonicalShape reg.sections mapped)) []).2).1 =
    normalizeMissingFields reg missing (ensureCanonicalShape reg.sections mapped)
  rw [keepMissingFields_fixpoint reg (ensureCanonicalShape reg.sections mapped)
    (normalizeMissingFields reg missing (ensureCanonicalShape reg.sections mapped)) hinv []]
  dsimp only
  rw [synthMissingFields_skip reg (ensureCanonicalShape reg.sections mapped)
    ((missingPairs (normalizeMissingFields reg missing
      (ensureCanonicalShape reg.sections mapped))).reverse ++ []) hcov]
  simp

/-- C3: normalization is idempotent.  For any registry with duplicate-free
section names and any mapping result, feeding the finalized output (canonical
document plus its normalized missing-field report) back through
`_finalize_mapping` returns the very same result except for the refreshed
`generated_at` timestamp: same canonical structure and values, list-identical
missing-field report, and identical remaining metadata. -/
theorem c3_idempotent_normalization (reg : Registry) (r : MappingResult) (t₁ t₂ : ℕ)
    (hnd : (reg.sections.map Prod.fst).Nodup) :
    finalizeMapping reg t₂ (finalizeMapping reg t₁ r) =
      { finalizeMapping reg t₁ r with
        metadata := { (finalizeMapping reg t₁ r).metadata with generated_at := t₂ } } := by
  show ({ mapped := ensureCanonicalShape reg.sections (finalizeMapping reg t₁ r).mapped
          missing_fields := normalizeMissingFields reg (finalizeMapping reg t₁ r).missing_fields
            (ensureCanonicalShape reg.sections (finalizeMapping reg t₁ r).mapped)
          metadata := { (finalizeMapping reg t₁ r).metadata with
            generated_at := t₂
            model_version := pyOrStr (finalizeMapping reg t₁ r).metadata.model_version
              (some reg.version)
            table_labels := tableLabelsOf reg
            field_labels := fieldLabelsOf reg } } : MappingResult) =
      { finalizeMapping reg t₁ r with
        metadata := { (finalizeMapping reg t₁ r).metadata with generated_at := t₂ } }
  have hmap : (finalizeMapping reg t₁ r).mapped = ensureCanonicalShape reg.sections r.mapped :=
    rfl
  have hmiss : (finalizeMapping reg t₁ r).missing_fields =
      normalizeMissingFields reg r.missing_fields (ensureCanonicalShape reg.sections r.mapped) :=
    rfl
  have hver : (finalizeMapping reg t₁ r).metadata.model_version =
      pyOrStr r.metadata.model_version (some reg.version) := rfl
  rw [MappingResult.mk.injEq]
  refine ⟨?_, ?_, ?_⟩
  · rw [hmap, ensureCanonicalShape_idem reg.sections r.mapped hnd]
  · rw [hmiss, hmap, ensureCanonicalShape_idem reg.sections r.mapped hnd]
    rw [normalizeMissingFields_stable reg r.mapped r.missing_fields hnd]
  · rw [MappingMetadata.mk.injEq]
    refine ⟨rfl, rfl, ?_, rfl, rfl⟩
    rw [hver]
    show pyOrStr (pyOrStr r.metadata.model_version (some reg.version)) (some reg.version) =
      pyOrStr r.metadata.model_version (some reg.version)
    exact pyOrStr_right _ _

/-- Witness for C3 at the growth-assumptions registry on a concrete raw
result. -/
theorem c3_idempotent_normalization_witness :
    (regGrowth.sections.map Prod.fst).Nodup ∧
      finalizeMapping regGrowth 2
          (finalizeMapping regGrowth 1
            { mapped := [("growth_assumptions", Val.dict [("market_rent_growth_1", Val.num 3)])]
              missing_fields := []
              metadata := { generated_at := 0 } }) =
        { finalizeMapping regGrowth 1
            { mapped := [("growth_assumptions", Val.dict [("market_rent_growth_1", Val.num 3)])]
              missing_fields := []
              metadata := { generated_at := 0 } } with
          metadata := { (finalizeMapping regGrowth 1
              { mapped := [("growth_assumptions", Val.dict [("market_rent_growth_1", Val.num 3)])]
                missing_fields := []
                metadata := { generated_at := 0 } }).metadata with generated_at := 2 } } :=
  ⟨by decide, c3_idempotent_normalization regGrowth
    { mapped := [("growth_assumptions", Val.dict [("market_rent_growth_1", Val.num 3)])]
      missing_fields := []
      metadata := { generated_at := 0 } } 1 2 (by decide)⟩

end AirrPoc
